import Mathlib

/-!
# SA-IS suffix array construction (`suffix_array.hpp`, `suffix_array.cpp`)

A shallow embedding of `suffix_array::construct` and of the helpers it calls.

* A `std::vector<T>` is a `List T`; `int` values and indices are `Int`
  (every vector here is far shorter than `2^31`, so no `int` operation wraps;
  `string.size() - 1` and `string.size() - 2`, computed in `size_t` and then
  used as an index or stored in an `int`, are the integers `n - 1`, `n - 2`:
  a negative one is an index outside every vector).
* Every `operator[]` is checked: an index outside the vector is the fault
  `out_of_bounds` (undefined behaviour in the source), and evaluation stops.
  The one exception is the increment in the `bucket_array` constructor for the
  exempted character value 0: that store goes to `buckets[0 - 32]`, in front of
  the table; it changes no entry of the table and the constructor goes on to
  the next character.
* `throw std::range_error` is the fault `range_error`.
* Mutable arguments (`bucket_array &`, `std::vector<int> &sa`) are passed and
  returned explicitly.
-/

namespace suffix_array

/-- Ways in which a call does not return a value. -/
inductive fault where
  /-- `throw std::range_error` -/
  | range_error
  /-- an `operator[]` with an index outside the container -/
  | out_of_bounds
  /-- the iteration or recursion budget of the model ran out -/
  | out_of_fuel
  deriving DecidableEq, Repr

/-- Result of a call: a value or a fault. -/
abbrev res (α : Type) : Type := Except fault α

instance {α : Type} [DecidableEq α] : DecidableEq (res α) := by
  intro a b
  cases a with
  | error e =>
    cases b with
    | error e2 =>
      exact if h : e = e2 then isTrue (by rw [h]) else isFalse (fun h2 => h (by cases h2; rfl))
    | ok _ => exact isFalse (fun h => by cases h)
  | ok x =>
    cases b with
    | error _ => exact isFalse (fun h => by cases h)
    | ok y =>
      exact if h : x = y then isTrue (by rw [h]) else isFalse (fun h2 => h (by cases h2; rfl))

/-- Checked read `v[i]`. -/
def vec_get {α : Type} (v : List α) : Int → res α
  | Int.ofNat k =>
    match v.get? k with
    | some x => .ok x
    | none => .error fault.out_of_bounds
  | Int.negSucc _ => .error fault.out_of_bounds

/-- Checked write `v[i] = x`. -/
def vec_set {α : Type} (v : List α) (i : Int) (x : α) : res (List α) :=
  match i with
  | Int.ofNat k => if k < v.length then .ok (v.set k x) else .error fault.out_of_bounds
  | Int.negSucc _ => .error fault.out_of_bounds

/-- `static const char l_type = 'l'` -/
def l_type : Char := 'l'

/-- `static const char s_type = 's'` -/
def s_type : Char := 's'

/-! ## bucket_array -/

/-- `static const int min_char = 32` -/
def min_char : Int := 32

/-- `static const int max_char = 126` -/
def max_char : Int := 126

/-- One entry of `buckets`: the `std::tuple<int, int, int>` read through
`enum bucket { head, size, tail }`. -/
structure bucket where
  head : Int
  size : Int
  tail : Int
  deriving DecidableEq, Repr

/-- The member `buckets[max_char - min_char + 1]`. -/
abbrev bucket_array : Type := List bucket

/-- The array as the constructor finds it: 95 value-initialised tuples. -/
def empty_buckets : bucket_array := List.replicate 95 ⟨0, 0, 0⟩

/-- Loop of `reset_heads`, `offset` being the running sum. -/
def reset_heads_from : Int → bucket_array → bucket_array
  | _, [] => []
  | offset, b :: bs => { b with head := offset } :: reset_heads_from (offset + b.size) bs

/-- `bucket_array::reset_heads` -/
def reset_heads (buckets : bucket_array) : bucket_array := reset_heads_from 1 buckets

/-- Loop of `reset_tails`, `offset` being the running sum. -/
def reset_tails_from : Int → bucket_array → bucket_array
  | _, [] => []
  | offset, b :: bs =>
    { b with tail := offset + b.size - 1 } :: reset_tails_from (offset + b.size) bs

/-- `bucket_array::reset_tails` -/
def reset_tails (buckets : bucket_array) : bucket_array := reset_tails_from 1 buckets

/-- The `while (first != last)` loop of the `bucket_array` constructor. A
character that passes the guard is 0 or lies in `min_char..max_char`. For 0 the
increment is a store to `buckets[0 - min_char]`, in front of the table: no
entry of the table changes and the loop goes on. -/
def count_chars : List Int → bucket_array → res bucket_array
  | [], buckets => .ok buckets
  | ch :: rest, buckets =>
    if ch ≠ 0 ∧ (ch < min_char ∨ ch > max_char) then .error fault.range_error
    else if ch = 0 then count_chars rest buckets
    else do
      let b ← vec_get buckets (ch - min_char)
      let buckets ← vec_set buckets (ch - min_char) { b with size := b.size + 1 }
      count_chars rest buckets

/-- `bucket_array::bucket_array(first, last)` -/
def make_buckets (string : List Int) : res bucket_array := do
  let buckets ← count_chars string empty_buckets
  .ok (reset_tails (reset_heads buckets))

/-- `bucket_array::next_head(unsigned char ch)`: the argument is converted to
`unsigned char`; returns the old head cursor and the updated array. -/
def next_head (buckets : bucket_array) (ch : Int) : res (Int × bucket_array) := do
  let b ← vec_get buckets (ch % 256 - min_char)
  let buckets ← vec_set buckets (ch % 256 - min_char) { b with head := b.head + 1 }
  .ok (b.head, buckets)

/-- `bucket_array::next_tail(unsigned char ch)`: returns the old tail cursor
and the updated array. -/
def next_tail (buckets : bucket_array) (ch : Int) : res (Int × bucket_array) := do
  let b ← vec_get buckets (ch % 256 - min_char)
  let buckets ← vec_set buckets (ch % 256 - min_char) { b with tail := b.tail - 1 }
  .ok (b.tail, buckets)

/-! ## LMS helpers -/

/-- Loop of `map_char_types`: `map_char_types_loop string k t` runs the body
for `i = k - 1, k - 2, ..., 0`. -/
def map_char_types_loop (string : List Int) : Nat → List Char → res (List Char)
  | 0, char_types => .ok char_types
  | i + 1, char_types => do
    let a ← vec_get string i
    let b ← vec_get string (i + 1)
    let char_types ←
      if a = b then do
        let t ← vec_get char_types (i + 1)
        vec_set char_types i t
      else if a > b then vec_set char_types i l_type
      else vec_set char_types i s_type
    map_char_types_loop string i char_types

/-- `suffix_array::map_char_types` -/
def map_char_types (string : List Int) : res (List Char) := do
  let n : Int := string.length
  let char_types := List.replicate (string.length + 1) (Char.ofNat 0)
  let char_types ← vec_set char_types n s_type
  let char_types ← vec_set char_types (n - 1) l_type
  map_char_types_loop string (n - 2 + 1).toNat char_types

/-- `suffix_array::lms_char`, with the short-circuit of `&&`. -/
def lms_char (char_types : List Char) (index : Int) : res Bool :=
  if index = 0 then .ok false
  else do
    let a ← vec_get char_types index
    if a ≠ s_type then .ok false
    else do
      let b ← vec_get char_types (index - 1)
      .ok (decide (b = l_type))

/-- The `while` loop of `lms_strings_equal`, entered with the values of `i`
and `j` before the increment. `none` is the `return false` inside the body,
`some (i, j)` the values on leaving the loop. The budget counts iterations. -/
def lms_scan (string : List Int) (char_types : List Char) :
    Nat → Int → Int → res (Option (Int × Int))
  | 0, _, _ => .error fault.out_of_fuel
  | fuel + 1, i, j => do
    let li ← lms_char char_types (i + 1)
    if li then .ok (some (i + 1, j))
    else do
      let lj ← lms_char char_types (j + 1)
      if lj then .ok (some (i + 1, j + 1))
      else do
        let a ← vec_get string (i + 1)
        let b ← vec_get string (j + 1)
        if a ≠ b then .ok none
        else lms_scan string char_types fuel (i + 1) (j + 1)

/-- The final `return lms_char(char_types, i) && lms_char(char_types, j)`. -/
def lms_both (char_types : List Char) (i j : Int) : res Bool := do
  let li ← lms_char char_types i
  if li then lms_char char_types j else .ok false

/-- `suffix_array::lms_strings_equal`. The loop advances `i` in every
iteration and `lms_char` reads `char_types[i]`, so `char_types.size() + 1`
iterations are never all used. -/
def lms_strings_equal (i j : Int) (string : List Int) (char_types : List Char) : res Bool :=
  if i = string.length ∨ j = string.length then .ok false
  else do
    let both ← lms_both char_types i j
    if both then do
      let r ← lms_scan string char_types (char_types.length + 1) i j
      match r with
      | none => .ok false
      | some (i2, j2) => lms_both char_types i2 j2
    else lms_both char_types i j

/-! ## suffix array construction -/

/-- Loop of `guess_lms`: `k` iterations remain, the next one has index `i`. -/
def guess_lms_loop (string : List Int) (char_types : List Char) :
    Nat → Int → List Int × bucket_array → res (List Int × bucket_array)
  | 0, _, st => .ok st
  | k + 1, i, (guessed_sa, buckets) => do
    let l ← lms_char char_types i
    if l then do
      let ch ← vec_get string i
      let (t, buckets) ← next_tail buckets ch
      let guessed_sa ← vec_set guessed_sa t i
      guess_lms_loop string char_types k (i + 1) (guessed_sa, buckets)
    else guess_lms_loop string char_types k (i + 1) (guessed_sa, buckets)

/-- `suffix_array::guess_lms` -/
def guess_lms (string : List Int) (char_types : List Char) (buckets : bucket_array) :
    res (List Int × bucket_array) := do
  let guessed_sa := List.replicate (string.length + 1) (-1 : Int)
  let guessed_sa ← vec_set guessed_sa 0 (string.length : Int)
  let (guessed_sa, buckets) ←
    guess_lms_loop string char_types string.length 0 (guessed_sa, buckets)
  .ok (guessed_sa, reset_tails buckets)

/-- Loop of `induce_sort_ltype`: `k` iterations remain, the next one has
index `i`. The bucket is chosen by `string[i]`, as in the source. -/
def induce_sort_ltype_loop (string : List Int) (char_types : List Char) :
    Nat → Int → List Int × bucket_array → res (List Int × bucket_array)
  | 0, _, st => .ok st
  | k + 1, i, (sa, buckets) => do
    let v ← vec_get sa i
    let str_index := v - 1
    if str_index ≥ 0 then do
      let t ← vec_get char_types str_index
      if t = l_type then do
        let ch ← vec_get string i
        let (h, buckets) ← next_head buckets ch
        let sa ← vec_set sa h str_index
        induce_sort_ltype_loop string char_types k (i + 1) (sa, buckets)
      else induce_sort_ltype_loop string char_types k (i + 1) (sa, buckets)
    else induce_sort_ltype_loop string char_types k (i + 1) (sa, buckets)

/-- `suffix_array::induce_sort_ltype` -/
def induce_sort_ltype (string : List Int) (sa : List Int) (char_types : List Char)
    (buckets : bucket_array) : res (List Int × bucket_array) := do
  let (sa, buckets) ← induce_sort_ltype_loop string char_types sa.length 0 (sa, buckets)
  .ok (sa, reset_heads buckets)

/-- Loop of `induce_sort_stype`: `induce_sort_stype_loop string t k st` runs
the body for `i = k - 1, ..., 0`. The array keeps its length, so
`sa.size() - 1` is fixed at entry. -/
def induce_sort_stype_loop (string : List Int) (char_types : List Char) :
    Nat → List Int × bucket_array → res (List Int × bucket_array)
  | 0, st => .ok st
  | i + 1, (sa, buckets) => do
    let v ← vec_get sa i
    let str_index := v - 1
    if str_index ≥ 0 then do
      let t ← vec_get char_types str_index
      if t = s_type then do
        let ch ← vec_get string i
        let (tl, buckets) ← next_tail buckets ch
        let sa ← vec_set sa tl str_index
        induce_sort_stype_loop string char_types i (sa, buckets)
      else induce_sort_stype_loop string char_types i (sa, buckets)
    else induce_sort_stype_loop string char_types i (sa, buckets)

/-- `suffix_array::induce_sort_stype` -/
def induce_sort_stype (string : List Int) (sa : List Int) (char_types : List Char)
    (buckets : bucket_array) : res (List Int × bucket_array) := do
  let (sa, buckets) ← induce_sort_stype_loop string char_types sa.length (sa, buckets)
  .ok (sa, reset_tails buckets)

/-- State of the naming loop of `summarize`. -/
structure naming where
  sum_string_temp : List Int
  name : Int
  last : Int
  deriving DecidableEq, Repr

/-- First loop of `summarize`: `k` iterations remain, the next one has
index `i`. -/
def summarize_names (string guessed_sa : List Int) (char_types : List Char) :
    Nat → Int → naming → res naming
  | 0, _, st => .ok st
  | k + 1, i, st => do
    let curr ← vec_get guessed_sa i
    let eq ← lms_strings_equal st.last curr string char_types
    let name := if eq then st.name else st.name + 1
    let temp ← vec_set st.sum_string_temp curr name
    summarize_names string guessed_sa char_types k (i + 1) ⟨temp, name, curr⟩

/-- Second loop of `summarize` over `sum_string_temp` from index `i` on:
the pair (`sum_string`, `sum_string_offsets`) collected from the entries that
are not `-1`. -/
def summarize_collect : List Int → Int → List Int × List Int
  | [], _ => ([], [])
  | x :: rest, i =>
    let (sum_string, sum_string_offsets) := summarize_collect rest (i + 1)
    if x ≠ -1 then (x :: sum_string, i :: sum_string_offsets)
    else (sum_string, sum_string_offsets)

/-- `suffix_array::summarize`: (`sum_string`, `name + 1`, `sum_string_offsets`). -/
def summarize (string guessed_sa : List Int) (char_types : List Char) :
    res (List Int × Int × List Int) := do
  let sum_string_temp := List.replicate (guessed_sa.length + 1) (-1 : Int)
  let last ← vec_get guessed_sa 0
  let sum_string_temp ← vec_set sum_string_temp last 0
  let st ← summarize_names string guessed_sa char_types (guessed_sa.length - 1) 1
    ⟨sum_string_temp, 0, last⟩
  let (sum_string, sum_string_offsets) := summarize_collect st.sum_string_temp 0
  .ok (sum_string, st.name + 1, sum_string_offsets)

/-- Loop of the direct branch of `make_summary_suffix_array`: `k` iterations
remain, the next one has index `i`. -/
def place_names (sum_string : List Int) : Nat → Int → List Int → res (List Int)
  | 0, _, sum_sa => .ok sum_sa
  | k + 1, i, sum_sa => do
    let v ← vec_get sum_string i
    let sum_sa ← vec_set sum_sa (v + 1) i
    place_names sum_string k (i + 1) sum_sa

/-- `suffix_array::make_summary_suffix_array`; `construct_rec` is the
recursive call `construct(sum_string)`. -/
def make_summary_suffix_array (construct_rec : List Int → res (List Int))
    (sum_string : List Int) (alpha_size : Int) : res (List Int) :=
  if alpha_size < sum_string.length then construct_rec sum_string
  else do
    let sum_sa := List.replicate (sum_string.length + 1) (-1 : Int)
    let sum_sa ← vec_set sum_sa 0 (sum_string.length : Int)
    place_names sum_string sum_string.length 0 sum_sa

/-- Loop `for (int i = string.size() - 1; i > 0; i++)` of `accurate_lms_sort`.
The index only grows, so each iteration that does not leave the loop reads
`sum_sa[i]` at a larger index; the budget counts iterations. -/
def accurate_lms_loop (string sum_sa sum_sa_offsets : List Int) :
    Nat → Int → List Int × bucket_array → res (List Int × bucket_array)
  | 0, _, _ => .error fault.out_of_fuel
  | fuel + 1, i, (suffix_offsets, buckets) =>
    if i > 0 then do
      let r ← vec_get sum_sa i
      let str_index ← vec_get sum_sa_offsets r
      let ch ← vec_get string str_index
      let (t, buckets) ← next_tail buckets ch
      let suffix_offsets ← vec_set suffix_offsets t str_index
      accurate_lms_loop string sum_sa sum_sa_offsets fuel (i + 1) (suffix_offsets, buckets)
    else .ok (suffix_offsets, buckets)

/-- `suffix_array::accurate_lms_sort` -/
def accurate_lms_sort (string sum_sa sum_sa_offsets : List Int) (buckets : bucket_array) :
    res (List Int × bucket_array) := do
  let suffix_offsets := List.replicate (string.length + 1) (-1 : Int)
  let suffix_offsets ← vec_set suffix_offsets 0 (string.length : Int)
  let (suffix_offsets, buckets) ←
    accurate_lms_loop string sum_sa sum_sa_offsets (sum_sa.length + 1)
      ((string.length : Int) - 1) (suffix_offsets, buckets)
  .ok (suffix_offsets, reset_tails buckets)

/-- `suffix_array::construct` with a budget for the depth of the recursion
through `make_summary_suffix_array`. -/
def construct_fuel : Nat → List Int → res (List Int)
  | 0, _ => .error fault.out_of_fuel
  | fuel + 1, string => do
    let buckets ← make_buckets string
    let char_types ← map_char_types string
    let (guessed_sa, buckets) ← guess_lms string char_types buckets
    let (guessed_sa, buckets) ← induce_sort_ltype string guessed_sa char_types buckets
    let (guessed_sa, buckets) ← induce_sort_stype string guessed_sa char_types buckets
    let (sum_string, alpha_size, sum_string_offsets) ← summarize string guessed_sa char_types
    let sum_sa ← make_summary_suffix_array (construct_fuel fuel) sum_string alpha_size
    let (final_sa, buckets) ← accurate_lms_sort string sum_sa sum_string_offsets buckets
    let (final_sa, buckets) ← induce_sort_ltype string final_sa char_types buckets
    let (final_sa, _) ← induce_sort_stype string final_sa char_types buckets
    .ok final_sa

/-- `suffix_array::construct`: one level of recursion per element of the
string is more than the source ever uses. -/
def construct (string : List Int) : res (List Int) :=
  construct_fuel (string.length + 1) string

/-- Sentinel-as-minimum lexicographic order on suffixes, each suffix given by
its real characters: the sentinel that ends the shorter one is below every
real character, so a proper prefix is the smaller. -/
def suffix_lt : List Int → List Int → Bool
  | _, [] => false
  | [], _ :: _ => true
  | a :: as, b :: bs => decide (a < b) || (decide (a = b) && suffix_lt as bs)

/-- The tags of a string and its sentinel, written from the right end. -/
def classify : List Int → List Char
  | [] => [s_type]
  | [_] => [l_type, s_type]
  | a :: b :: rest =>
    (if a = b then (classify (b :: rest)).headD s_type
      else if a > b then l_type else s_type) :: classify (b :: rest)

/-- Entries of `sum_string_temp` that are not `-1`. -/
def named (temp : List Int) : Nat := temp.countP (fun x => decide (x ≠ -1))

/-- The first statements of `construct`, up to and including the first
`induce_sort_stype`: the tags, the working array and the bucket array that
`summarize` and `accurate_lms_sort` then receive. -/
def first_round (string : List Int) : res (List Char × List Int × bucket_array) := do
  let buckets ← make_buckets string
  let char_types ← map_char_types string
  let (guessed_sa, buckets) ← guess_lms string char_types buckets
  let (guessed_sa, buckets) ← induce_sort_ltype string guessed_sa char_types buckets
  let (guessed_sa, buckets) ← induce_sort_stype string guessed_sa char_types buckets
  .ok (char_types, guessed_sa, buckets)

/-- Number of characters of the string that are smaller than `c`. -/
def chars_below (string : List Int) (c : Int) : Int :=
  string.countP (fun x => decide (x < c))

/-- The entry `buckets[c - min_char]`. -/
def bucket_at (buckets : bucket_array) (c : Int) : bucket :=
  buckets.getD (c - min_char).toNat ⟨0, 0, 0⟩

/-- Sizes equal to the numbers of occurrences, as after the constructor's
counting loop and after any `next_head` / `next_tail`. -/
def sizes_count (s : List Int) (b : bucket_array) : Prop :=
  b.length = 95 ∧ ∀ (j : Nat) (x : bucket), b[j]? = some x → x.size = (s.count (32 + (j : Int)) : Int)

/-- Number of LMS positions before position `i` whose character is `c`. -/
def lms_before (string : List Int) (char_types : List Char) (c : Int) (i : Nat) : Nat :=
  (List.range i).countP
    (fun q : Nat =>
      decide (lms_char char_types (q : Int) = .ok true) && decide (string[q]? = some c))

/-- The slot that `guess_lms` gives to position `p`: the tail of the bucket of
`string[p]`, lowered by one for every earlier LMS position with that character. -/
def lms_slot (string : List Int) (char_types : List Char) (buckets : bucket_array) (p : Nat) :
    Int :=
  (bucket_at buckets (string.getD p 0)).tail
    - (lms_before string char_types (string.getD p 0) p : Int)

/-- The bucket array as the constructor leaves it. -/
def fresh_buckets (s : List Int) (b : bucket_array) : Prop :=
  ∀ k : Nat, k < 95 →
    b[k]? = some ⟨1 + chars_below s (32 + (k : Int)), (s.count (32 + (k : Int)) : Int),
      chars_below s (32 + (k : Int) + 1)⟩

/-- State of the loop of `guess_lms` before the iteration with index `i`. -/
def seeded (s : List Int) (t : List Char) (b : bucket_array) (i : Nat) (sa : List Int)
    (bk : bucket_array) : Prop :=
  sa.length = s.length + 1 ∧ bk.length = 95 ∧
  (∀ (k : Nat) (x : bucket), b[k]? = some x →
    bk[k]? = some { x with tail := x.tail - (lms_before s t (32 + (k : Int)) i : Int) }) ∧
  sa[0]? = some (s.length : Int) ∧
  (∀ q : Nat, q < i → lms_char t (q : Int) = .ok true →
    sa[(lms_slot s t b q).toNat]? = some (q : Int)) ∧
  (∀ k : Nat, 1 ≤ k → k ≤ s.length →
    (∀ q : Nat, q < i → lms_char t (q : Int) = .ok true → (lms_slot s t b q).toNat ≠ k) →
    sa[k]? = some (-1))

/-! ## Results of binds -/

theorem bind_eq_ok {α β : Type} (x : res α) (f : α → res β) (b : β) :
    (x >>= f) = .ok b ↔ ∃ a, x = .ok a ∧ f a = .ok b := by
  cases x with
  | error e => simp [bind, Except.bind]
  | ok a => simp [bind, Except.bind]

/-! ## The loop of `accurate_lms_sort` never exits -/

theorem accurate_lms_loop_not_ok (string sum_sa sum_sa_offsets : List Int) :
    ∀ (fuel : Nat) (i : Int) (st out : List Int × bucket_array), 0 < i →
      accurate_lms_loop string sum_sa sum_sa_offsets fuel i st ≠ .ok out := by
  intro fuel
  induction fuel with
  | zero => intro i st out _ h; cases st; simp [accurate_lms_loop] at h
  | succ fuel ih =>
    intro i st out hi h
    obtain ⟨so, b⟩ := st
    simp only [accurate_lms_loop, gt_iff_lt, hi, if_true, bind_eq_ok] at h
    obtain ⟨r, _, k, _, ch, _, ⟨t, b2⟩, _, so2, _, h⟩ := h
    exact ih (i + 1) (so2, b2) out (by omega) h

theorem accurate_lms_sort_not_ok (string sum_sa sum_sa_offsets : List Int)
    (buckets : bucket_array) (out : List Int × bucket_array) (h : 2 ≤ string.length) :
    accurate_lms_sort string sum_sa sum_sa_offsets buckets ≠ .ok out := by
  intro hc
  simp only [accurate_lms_sort, bind_eq_ok] at hc
  obtain ⟨so, _, ⟨so2, b2⟩, hl, _⟩ := hc
  exact accurate_lms_loop_not_ok string sum_sa sum_sa_offsets _ _ _ _ (by omega) hl

theorem construct_fuel_not_ok (fuel : Nat) (string out : List Int) (h : 2 ≤ string.length) :
    construct_fuel fuel string ≠ .ok out := by
  intro hc
  cases fuel with
  | zero => simp [construct_fuel] at hc
  | succ fuel =>
    simp only [construct_fuel, bind_eq_ok] at hc
    obtain ⟨_, _, _, _, _, _, _, _, _, _, _, _, _, _, r, hr, _⟩ := hc
    exact accurate_lms_sort_not_ok _ _ _ _ _ h hr

/-! ## The classifier -/

/-- `suffix_lt` is the lexicographic order of lists, in which a proper prefix
is the smaller list. -/
theorem suffix_lt_iff_lex :
    ∀ (u v : List Int), suffix_lt u v = true ↔ List.Lex (fun a b => a < b) u v := by
  intro u
  induction u with
  | nil =>
    intro v
    cases v with
    | nil => simp [suffix_lt]
    | cons b bs => simp only [suffix_lt, true_iff]; exact List.Lex.nil
  | cons a as ih =>
    intro v
    cases v with
    | nil => simp only [suffix_lt, Bool.false_eq_true, false_iff]; intro h; cases h
    | cons b bs =>
      simp only [suffix_lt, Bool.or_eq_true, decide_eq_true_eq, Bool.and_eq_true]
      constructor
      · rintro (h | ⟨h1, h2⟩)
        · exact List.Lex.rel h
        · subst h1
          exact List.Lex.cons ((ih bs).1 h2)
      · intro h
        cases h with
        | rel h => exact Or.inl h
        | cons h => exact Or.inr ⟨rfl, (ih bs).2 h⟩

theorem vec_get_natCast {α : Type} (v : List α) (k : Nat) :
    vec_get v (k : Int) =
      match v.get? k with
      | some x => .ok x
      | none => .error fault.out_of_bounds := rfl

theorem vec_set_natCast {α : Type} (v : List α) (k : Nat) (x : α) :
    vec_set v (k : Int) x =
      if k < v.length then .ok (v.set k x) else .error fault.out_of_bounds := rfl

theorem vec_get_append_cons {α : Type} (pre post : List α) (x : α) :
    vec_get (pre ++ x :: post) (pre.length : Int) = .ok x := by
  rw [vec_get_natCast]
  have h : (pre ++ x :: post).get? pre.length = some x := by
    induction pre with
    | nil => rfl
    | cons p ps ih => simpa using ih
  rw [h]

theorem vec_set_append_cons {α : Type} (pre post : List α) (x y : α) :
    vec_set (pre ++ y :: post) (pre.length : Int) x = .ok (pre ++ x :: post) := by
  rw [vec_set_natCast]
  simp

theorem classify_length (s : List Int) : (classify s).length = s.length + 1 := by
  induction s with
  | nil => rfl
  | cons a tl ih =>
    cases tl with
    | nil => rfl
    | cons b rest => simp only [classify, List.length_cons, ih]

theorem classify_cons_tail (a : Int) (tl : List Int) :
    ∃ t, classify (a :: tl) = t :: classify tl := by
  cases tl with
  | nil => exact ⟨l_type, rfl⟩
  | cons b rest => exact ⟨_, rfl⟩

theorem map_char_types_loop_classify (z : Char) :
    ∀ (k : Nat) (pre rest : List Int), pre.length = k → rest ≠ [] →
      map_char_types_loop (pre ++ rest) k (List.replicate k z ++ classify rest)
        = .ok (classify (pre ++ rest)) := by
  intro k
  induction k with
  | zero =>
    intro pre rest hk _
    have : pre = [] := List.eq_nil_of_length_eq_zero hk
    subst this
    simp [map_char_types_loop]
  | succ i ih =>
    intro pre rest hk hne
    obtain ⟨pre2, a, rfl⟩ : ∃ pre2 a, pre = pre2 ++ [a] := by
      rcases List.eq_nil_or_concat pre with h | ⟨l, x, h⟩
      · subst h; simp at hk
      · exact ⟨l, x, by simpa using h⟩
    obtain ⟨b, post, rfl⟩ : ∃ b post, rest = b :: post := by
      cases rest with
      | nil => exact absurd rfl hne
      | cons b post => exact ⟨b, post, rfl⟩
    have hi : pre2.length = i := by simpa using hk
    obtain ⟨t, ht⟩ := classify_cons_tail b post
    have e1 : vec_get (pre2 ++ [a] ++ b :: post) (i : Int) = .ok a := by
      rw [← hi, List.append_assoc]; exact vec_get_append_cons pre2 _ a
    have e2 : vec_get (pre2 ++ [a] ++ b :: post) ((i : Int) + 1) = .ok b := by
      have := vec_get_append_cons (pre2 ++ [a]) post b
      simpa [hi] using this
    have e3 : vec_get (List.replicate (i + 1) z ++ classify (b :: post)) ((i : Int) + 1)
        = .ok t := by
      have := vec_get_append_cons (List.replicate (i + 1) z) (classify post) t
      rw [ht]
      simpa using this
    have e4 : ∀ x, vec_set (List.replicate (i + 1) z ++ classify (b :: post)) (i : Int) x
        = .ok (List.replicate i z ++ x :: classify (b :: post)) := by
      intro x
      have := vec_set_append_cons (List.replicate i z) (classify (b :: post)) x z
      simpa [List.replicate_succ', List.append_assoc] using this
    have e5 : pre2 ++ [a] ++ b :: post = pre2 ++ a :: b :: post := by simp
    have hcl : classify (a :: b :: post) =
        (if a = b then t else if a > b then l_type else s_type) :: classify (b :: post) := by
      simp [classify, ht]
    have key := ih pre2 (a :: b :: post) hi (by simp)
    rw [hcl] at key
    rw [map_char_types_loop, e1, e2]
    simp only [bind, Except.bind]
    by_cases hab : a = b
    · simp only [hab, if_true, e3, e4] at key ⊢
      simpa [e5] using key
    · by_cases hgt : a > b
      · simp only [hab, hgt, if_true, if_false, e4] at key ⊢
        simpa [e5] using key
      · simp only [hab, hgt, if_false, e4] at key ⊢
        simpa [e5] using key

theorem map_char_types_eq_classify (string : List Int) (h : string ≠ []) :
    map_char_types string = .ok (classify string) := by
  obtain ⟨pre, a, rfl⟩ : ∃ pre a, string = pre ++ [a] := by
    rcases List.eq_nil_or_concat string with h2 | ⟨l, x, h2⟩
    · exact absurd h2 h
    · exact ⟨l, x, by simpa using h2⟩
  have key := map_char_types_loop_classify (Char.ofNat 0) pre.length pre [a] rfl (by simp)
  have s1 : vec_set (List.replicate ((pre ++ [a]).length + 1) (Char.ofNat 0))
      (((pre ++ [a]).length : Nat) : Int) s_type
      = .ok (List.replicate (pre.length + 1) (Char.ofNat 0) ++ [s_type]) := by
    have := vec_set_append_cons (List.replicate (pre.length + 1) (Char.ofNat 0)) []
      s_type (Char.ofNat 0)
    simpa [List.replicate_succ'] using this
  have s2 : vec_set (List.replicate (pre.length + 1) (Char.ofNat 0) ++ [s_type])
      ((((pre ++ [a]).length : Nat) : Int) - 1) l_type
      = .ok (List.replicate pre.length (Char.ofNat 0) ++ [l_type, s_type]) := by
    have := vec_set_append_cons (List.replicate pre.length (Char.ofNat 0)) [s_type]
      l_type (Char.ofNat 0)
    simpa [List.replicate_succ'] using this
  have s3 : ((((pre ++ [a]).length : Nat) : Int) - 2 + 1).toNat = pre.length := by
    simp
    omega
  simp only [map_char_types, s1, s2, s3, bind, Except.bind]
  exact key

theorem classify_at_length (s : List Int) : (classify s)[s.length]? = some s_type := by
  induction s with
  | nil => rfl
  | cons a tl ih =>
    obtain ⟨t, ht⟩ := classify_cons_tail a tl
    rw [ht]
    simpa using ih

theorem classify_before_length (s : List Int) (h : s ≠ []) :
    (classify s)[s.length - 1]? = some l_type := by
  induction s with
  | nil => exact absurd rfl h
  | cons a tl ih =>
    cases tl with
    | nil => rfl
    | cons b rest =>
      obtain ⟨t, ht⟩ := classify_cons_tail a (b :: rest)
      rw [ht]
      simpa using ih (by simp)

theorem classify_meaning (s : List Int) :
    ∀ i, i < s.length →
      ((classify s)[i]? = some l_type ↔ suffix_lt (s.drop (i + 1)) (s.drop i) = true) ∧
      ((classify s)[i]? = some s_type ↔ suffix_lt (s.drop i) (s.drop (i + 1)) = true) := by
  induction s with
  | nil => intro i hi; simp at hi
  | cons a tl ih =>
    intro i hi
    cases i with
    | succ j =>
      obtain ⟨t, ht⟩ := classify_cons_tail a tl
      rw [ht]
      have := ih j (by simpa using hi)
      simpa using this
    | zero =>
      cases tl with
      | nil =>
        simp [classify, suffix_lt, l_type, s_type]
      | cons b rest =>
        have h0 := ih 0 (by simp)
        obtain ⟨t, ht⟩ := classify_cons_tail b rest
        rw [ht] at h0
        simp only [List.getElem?_cons_zero, Option.some.injEq, List.drop_zero, zero_add,
          List.drop_succ_cons] at h0
        by_cases hab : a = b
        · subst hab
          simp only [classify, ht, List.headD_cons, if_true, List.getElem?_cons_zero,
            Option.some.injEq, List.drop_zero, zero_add, List.drop_succ_cons]
          simp only [suffix_lt, lt_self_iff_false, decide_False, decide_True, Bool.true_and,
            Bool.false_or]
          exact h0
        · rcases lt_or_gt_of_ne hab with hlt | hgt
          · have h1 : ¬ a > b := by omega
            have h2 : ¬ b < a := by omega
            have h3 : ¬ b = a := fun e => hab e.symm
            simp [classify, suffix_lt, hab, h1, h2, h3, hlt, l_type, s_type]
          · have h1 : ¬ a < b := by omega
            have h3 : ¬ b = a := fun e => hab e.symm
            have h4 : b < a := hgt
            simp [classify, suffix_lt, hab, hgt, h1, h3, h4, l_type, s_type]

/-! ## `lms_strings_equal` never answers `true` -/

theorem lms_char_true {t : List Char} {i : Int} (h : lms_char t i = .ok true) :
    vec_get t i = .ok s_type ∧ vec_get t (i - 1) = .ok l_type := by
  unfold lms_char at h
  split_ifs at h with h0
  · simp at h
  · cases ha : vec_get t i with
    | error e => simp [ha, bind, Except.bind] at h
    | ok a =>
      simp only [ha, bind, Except.bind] at h
      split_ifs at h with h1
      · simp at h
      · cases hb : vec_get t (i - 1) with
        | error e => simp [hb] at h
        | ok b =>
          simp only [hb] at h
          have h2 : b = l_type := by simpa using h
          have h3 : a = s_type := by simpa using h1
          exact ⟨by rw [h3], by rw [h2]⟩

theorem lms_char_not_adjacent {t : List Char} {i : Int} (h1 : lms_char t i = .ok true)
    (h2 : lms_char t (i + 1) = .ok true) : False := by
  have a := (lms_char_true h1).1
  have b := (lms_char_true h2).2
  rw [add_sub_cancel_right, a] at b
  simp [s_type, l_type] at b

theorem lms_both_true {t : List Char} {i j : Int} (h : lms_both t i j = .ok true) :
    lms_char t i = .ok true ∧ lms_char t j = .ok true := by
  unfold lms_both at h
  cases hi : lms_char t i with
  | error e => simp [hi, bind, Except.bind] at h
  | ok li =>
    simp only [hi, bind, Except.bind] at h
    cases li with
    | false => simp at h
    | true => exact ⟨rfl, by simpa using h⟩

theorem lms_scan_exit (string : List Int) (t : List Char) :
    ∀ (fuel : Nat) (i j i2 j2 : Int),
      (lms_char t j = .ok false ∨ lms_char t i = .ok true) →
      lms_scan string t fuel i j = .ok (some (i2, j2)) →
      lms_both t i2 j2 ≠ .ok true := by
  intro fuel
  induction fuel with
  | zero => intro i j i2 j2 _ h; simp [lms_scan] at h
  | succ fuel ih =>
    intro i j i2 j2 hinv h hb
    have hb2 := lms_both_true hb
    unfold lms_scan at h
    cases hi : lms_char t (i + 1) with
    | error e => simp [hi, bind, Except.bind] at h
    | ok li =>
      simp only [hi, bind, Except.bind] at h
      cases li with
      | true =>
        simp only [if_true, Except.ok.injEq, Option.some.injEq, Prod.mk.injEq] at h
        obtain ⟨rfl, rfl⟩ := h
        rcases hinv with hj | hi0
        · rw [hj] at hb2; simp at hb2
        · exact lms_char_not_adjacent hi0 hi
      | false =>
        simp only [Bool.false_eq_true, if_false] at h
        cases hj : lms_char t (j + 1) with
        | error e => simp [hj] at h
        | ok lj =>
          simp only [hj] at h
          cases lj with
          | true =>
            simp only [if_true, Except.ok.injEq, Option.some.injEq, Prod.mk.injEq] at h
            obtain ⟨rfl, rfl⟩ := h
            rw [hi] at hb2; simp at hb2
          | false =>
            simp only [Bool.false_eq_true, if_false] at h
            cases ha : vec_get string (i + 1) with
            | error e => simp [ha] at h
            | ok a =>
              cases hbb : vec_get string (j + 1) with
              | error e => simp [ha, hbb] at h
              | ok b =>
                simp only [ha, hbb] at h
                split_ifs at h with hne
                · simp at h
                · exact ih (i + 1) (j + 1) i2 j2 (Or.inl hj) h hb

theorem lms_strings_equal_not_true (i j : Int) (string : List Int) (t : List Char) :
    lms_strings_equal i j string t ≠ .ok true := by
  intro h
  unfold lms_strings_equal at h
  split_ifs at h with h0
  · simp at h
  · cases hb : lms_both t i j with
    | error e => simp [hb, bind, Except.bind] at h
    | ok both =>
      simp only [hb, bind, Except.bind] at h
      cases both with
      | false => simp at h
      | true =>
        simp only [if_true] at h
        cases hs : lms_scan string t (t.length + 1) i j with
        | error e => simp [hs] at h
        | ok r =>
          simp only [hs] at h
          cases r with
          | none => simp at h
          | some p =>
            obtain ⟨i2, j2⟩ := p
            exact lms_scan_exit string t _ i j i2 j2 (Or.inr (lms_both_true hb).1) hs h

/-! ## `summarize` never asks for the recursive branch -/

theorem set_countP_le {α : Type} (p : α → Bool) (x : α) :
    ∀ (l : List α) (k : Nat), (l.set k x).countP p ≤ l.countP p + 1 := by
  intro l
  induction l with
  | nil => intro k; simp
  | cons a tl ih =>
    intro k
    cases k with
    | zero =>
      simp only [List.set_cons_zero, List.countP_cons]
      split_ifs <;> omega
    | succ k =>
      simp only [List.set_cons_succ, List.countP_cons]
      have := ih k
      omega

theorem vec_set_ok {α : Type} {v w : List α} {i : Int} {x : α} (h : vec_set v i x = .ok w) :
    ∃ k : Nat, i = k ∧ k < v.length ∧ w = v.set k x := by
  cases i with
  | ofNat k =>
    simp only [vec_set] at h
    split_ifs at h with hk
    exact ⟨k, rfl, hk, by simpa using h.symm⟩
  | negSucc k => simp [vec_set] at h

theorem vec_get_ok {α : Type} {v : List α} {i : Int} {x : α} (h : vec_get v i = .ok x) :
    ∃ k : Nat, i = k ∧ k < v.length ∧ v[k]? = some x := by
  cases i with
  | ofNat k =>
    change vec_get v (k : Int) = .ok x at h
    rw [vec_get_natCast] at h
    cases hg : v.get? k with
    | none => rw [hg] at h; simp at h
    | some y =>
      rw [hg] at h
      simp only [Except.ok.injEq] at h
      subst h
      have hg2 : v[k]? = some y := by simpa using hg
      refine ⟨k, rfl, ?_, hg2⟩
      by_contra hlt
      rw [List.getElem?_eq_none (by omega)] at hg2
      simp at hg2
  | negSucc k => simp [vec_get] at h

theorem summarize_names_ok (string guessed_sa : List Int) (t : List Char) :
    ∀ (k : Nat) (i : Int) (st st2 : naming),
      summarize_names string guessed_sa t k i st = .ok st2 →
      st2.name = st.name + k ∧ named st2.sum_string_temp ≤ named st.sum_string_temp + k := by
  intro k
  induction k with
  | zero =>
    intro i st st2 h
    simp only [summarize_names, Except.ok.injEq] at h
    subst h
    simp
  | succ k ih =>
    intro i st st2 h
    simp only [summarize_names, bind_eq_ok] at h
    obtain ⟨curr, _, eq, heq, temp, htemp, h⟩ := h
    have hfalse : eq = false := by
      cases eq with
      | false => rfl
      | true => exact absurd heq (lms_strings_equal_not_true _ _ _ _)
    subst hfalse
    obtain ⟨c, _, _, rfl⟩ := vec_set_ok htemp
    obtain ⟨h1, h2⟩ := ih _ _ _ h
    simp only [Bool.false_eq_true, if_false] at h1 h2
    have h3 := set_countP_le (fun x => decide (x ≠ -1)) (st.name + 1) st.sum_string_temp c
    refine ⟨by rw [h1]; push_cast; ring, ?_⟩
    unfold named at h2 ⊢
    omega

theorem summarize_collect_length :
    ∀ (temp : List Int) (i : Int), (summarize_collect temp i).1.length = named temp ∧
      (summarize_collect temp i).2.length = named temp := by
  intro temp
  induction temp with
  | nil => intro i; simp [summarize_collect, named]
  | cons x rest ih =>
    intro i
    have := ih (i + 1)
    unfold named at this ⊢
    simp only [summarize_collect, List.countP_cons]
    by_cases hx : x = -1 <;> simp [hx, this]

theorem summarize_ok {string guessed_sa : List Int} {t : List Char}
    {sum_string sum_string_offsets : List Int} {alpha_size : Int}
    (h : summarize string guessed_sa t = .ok (sum_string, alpha_size, sum_string_offsets)) :
    alpha_size = guessed_sa.length ∧ sum_string.length ≤ guessed_sa.length ∧
      sum_string_offsets.length = sum_string.length := by
  simp only [summarize, bind_eq_ok] at h
  obtain ⟨last, hlast, temp, htemp, st, hst, h⟩ := h
  simp only [Except.ok.injEq, Prod.mk.injEq] at h
  obtain ⟨rfl, rfl, rfl⟩ := h
  obtain ⟨_, _, hpos, _⟩ := vec_get_ok hlast
  obtain ⟨c, _, _, rfl⟩ := vec_set_ok htemp
  obtain ⟨h1, h2⟩ := summarize_names_ok _ _ _ _ _ _ _ hst
  have h3 := set_countP_le (fun x => decide (x ≠ -1)) (0 : Int)
    (List.replicate (guessed_sa.length + 1) (-1 : Int)) c
  have h4 : (List.replicate (guessed_sa.length + 1) (-1 : Int)).countP
      (fun x => decide (x ≠ -1)) = 0 := by
    rw [List.countP_eq_zero]
    intro a ha
    simp [List.eq_of_mem_replicate ha]
  have h5 := summarize_collect_length st.sum_string_temp 0
  simp only at h1 h2
  unfold named at h2 h5
  refine ⟨?_, ?_, ?_⟩
  · rw [h1]; omega
  · omega
  · omega

theorem make_summary_suffix_array_direct (construct_rec : List Int → res (List Int))
    (sum_string : List Int) (alpha_size : Int) (h : (sum_string.length : Int) ≤ alpha_size) :
    make_summary_suffix_array construct_rec sum_string alpha_size =
      (vec_set (List.replicate (sum_string.length + 1) (-1 : Int)) 0 (sum_string.length : Int)
        >>= place_names sum_string sum_string.length 0) := by
  unfold make_summary_suffix_array
  rw [if_neg (by omega)]

/-! ## Faults other than an index out of bounds

Only the bucket constructor raises a range error, and the budgets of the model
are never used up: `e` below is a fault other than `out_of_bounds`. -/

theorem bind_eq_error {α β : Type} (x : res α) (f : α → res β) (e : fault) :
    (x >>= f) = .error e ↔ x = .error e ∨ ∃ a, x = .ok a ∧ f a = .error e := by
  cases x with
  | error e2 => simp [bind, Except.bind]
  | ok a => simp [bind, Except.bind]

theorem vec_get_fault {e : fault} (he : e ≠ fault.out_of_bounds) {α : Type} (v : List α)
    (i : Int) : vec_get v i = .error e ↔ False := by
  cases i with
  | ofNat k =>
    change vec_get v (k : Int) = _ ↔ False
    rw [vec_get_natCast]
    cases v.get? k <;> simp [Ne.symm he]
  | negSucc k => simp [vec_get, Ne.symm he]

theorem vec_set_fault {e : fault} (he : e ≠ fault.out_of_bounds) {α : Type} (v : List α)
    (i : Int) (x : α) : vec_set v i x = .error e ↔ False := by
  cases i with
  | ofNat k =>
    change vec_set v (k : Int) x = _ ↔ False
    rw [vec_set_natCast]
    split_ifs <;> simp [Ne.symm he]
  | negSucc k => simp [vec_set, Ne.symm he]

theorem next_head_fault {e : fault} (he : e ≠ fault.out_of_bounds) (buckets : bucket_array)
    (ch : Int) : next_head buckets ch = .error e ↔ False := by
  simp [next_head, bind_eq_error, vec_get_fault he, vec_set_fault he]

theorem next_tail_fault {e : fault} (he : e ≠ fault.out_of_bounds) (buckets : bucket_array)
    (ch : Int) : next_tail buckets ch = .error e ↔ False := by
  simp [next_tail, bind_eq_error, vec_get_fault he, vec_set_fault he]

theorem lms_char_fault {e : fault} (he : e ≠ fault.out_of_bounds) (t : List Char) (i : Int) :
    lms_char t i = .error e ↔ False := by
  unfold lms_char
  split_ifs
  · simp
  · simp only [bind_eq_error, vec_get_fault he, false_or, iff_false, not_exists, not_and]
    intro a _
    split_ifs
    · simp
    · simp [bind_eq_error, vec_get_fault he]

theorem lms_both_fault {e : fault} (he : e ≠ fault.out_of_bounds) (t : List Char) (i j : Int) :
    lms_both t i j = .error e ↔ False := by
  simp only [lms_both, bind_eq_error, lms_char_fault he, false_or, iff_false, not_exists,
    not_and]
  intro a _
  split_ifs <;> simp [lms_char_fault he]

theorem lms_char_ok_bounds {t : List Char} {i : Int} {r : Bool} (h : lms_char t i = .ok r)
    (hi : i ≠ 0) : 0 ≤ i ∧ i < t.length := by
  unfold lms_char at h
  rw [if_neg hi] at h
  simp only [bind_eq_ok] at h
  obtain ⟨a, ha, _⟩ := h
  obtain ⟨k, rfl, hk, _⟩ := vec_get_ok ha
  omega

theorem lms_scan_fault {e : fault} (he : e ≠ fault.out_of_bounds) (string : List Int)
    (t : List Char) :
    ∀ (fuel : Nat) (i j : Int), 0 ≤ i → i < t.length → (t.length : Int) ≤ i + fuel →
      (lms_scan string t fuel i j = .error e ↔ False) := by
  intro fuel
  induction fuel with
  | zero => intro i j _ h1 h2; simp at h2; omega
  | succ fuel ih =>
    intro i j h0 h1 h2
    simp only [lms_scan, bind_eq_error, lms_char_fault he, false_or, iff_false, not_exists,
      not_and]
    intro li hli
    have hb := lms_char_ok_bounds hli (by omega)
    split_ifs
    · simp
    · simp only [bind_eq_error, lms_char_fault he, false_or, not_exists, not_and]
      intro lj _
      split_ifs
      · simp
      · simp only [bind_eq_error, vec_get_fault he, false_or, not_exists, not_and]
        intro a _ b _
        split_ifs
        · simp
        · have := ih (i + 1) (j + 1) (by omega) hb.2 (by push_cast at h2; omega)
          simpa using this

theorem lms_strings_equal_fault {e : fault} (he : e ≠ fault.out_of_bounds) (i j : Int)
    (string : List Int) (t : List Char) :
    lms_strings_equal i j string t = .error e ↔ False := by
  unfold lms_strings_equal
  split_ifs
  · simp
  · simp only [bind_eq_error, lms_both_fault he, false_or, iff_false, not_exists, not_and]
    intro both hboth
    split_ifs with hb
    · subst hb
      have hi := (lms_both_true hboth).1
      have h0 : i ≠ 0 := by
        intro h; subst h; simp [lms_char] at hi
      have hbd := lms_char_ok_bounds hi h0
      have hs := lms_scan_fault he string t (t.length + 1) i j hbd.1 hbd.2
        (by push_cast; omega)
      simp only [bind_eq_error, hs, false_or, not_exists, not_and]
      intro r _
      cases r with
      | none => simp
      | some p => simp [lms_both_fault he]
    · simp [lms_both_fault he]

theorem map_char_types_loop_fault {e : fault} (he : e ≠ fault.out_of_bounds)
    (string : List Int) :
    ∀ (k : Nat) (t : List Char), map_char_types_loop string k t = .error e ↔ False := by
  intro k
  induction k with
  | zero => intro t; simp [map_char_types_loop]
  | succ k ih =>
    intro t
    simp only [map_char_types_loop, bind_eq_error, vec_get_fault he, false_or, iff_false,
      not_exists, not_and]
    intro a _ b _
    split_ifs <;> simp [bind_eq_error, vec_get_fault he, vec_set_fault he, ih]

theorem map_char_types_fault {e : fault} (he : e ≠ fault.out_of_bounds) (string : List Int) :
    map_char_types string = .error e ↔ False := by
  simp [map_char_types, bind_eq_error, vec_set_fault he, map_char_types_loop_fault he]

theorem guess_lms_loop_fault {e : fault} (he : e ≠ fault.out_of_bounds) (string : List Int)
    (t : List Char) :
    ∀ (k : Nat) (i : Int) (st : List Int × bucket_array),
      guess_lms_loop string t k i st = .error e ↔ False := by
  intro k
  induction k with
  | zero => intro i st; simp [guess_lms_loop]
  | succ k ih =>
    intro i st
    obtain ⟨sa, b⟩ := st
    simp only [guess_lms_loop, bind_eq_error, lms_char_fault he, false_or, iff_false,
      not_exists, not_and]
    intro l _
    split_ifs
    · simp [bind_eq_error, vec_get_fault he, vec_set_fault he, next_tail_fault he, ih]
    · simp [ih]

theorem guess_lms_fault {e : fault} (he : e ≠ fault.out_of_bounds) (string : List Int)
    (t : List Char) (buckets : bucket_array) :
    guess_lms string t buckets = .error e ↔ False := by
  simp [guess_lms, bind_eq_error, vec_set_fault he, guess_lms_loop_fault he]

theorem induce_sort_ltype_loop_fault {e : fault} (he : e ≠ fault.out_of_bounds)
    (string : List Int) (t : List Char) :
    ∀ (k : Nat) (i : Int) (st : List Int × bucket_array),
      induce_sort_ltype_loop string t k i st = .error e ↔ False := by
  intro k
  induction k with
  | zero => intro i st; simp [induce_sort_ltype_loop]
  | succ k ih =>
    intro i st
    obtain ⟨sa, b⟩ := st
    simp only [induce_sort_ltype_loop, bind_eq_error, vec_get_fault he, false_or, iff_false,
      not_exists, not_and]
    intro v _
    split_ifs
    · simp only [bind_eq_error, vec_get_fault he, false_or, not_exists, not_and]
      intro c _
      split_ifs
      · simp [bind_eq_error, vec_get_fault he, vec_set_fault he, next_head_fault he, ih]
      · simp [ih]
    · simp [ih]

theorem induce_sort_ltype_fault {e : fault} (he : e ≠ fault.out_of_bounds)
    (string sa : List Int) (t : List Char) (buckets : bucket_array) :
    induce_sort_ltype string sa t buckets = .error e ↔ False := by
  simp [induce_sort_ltype, bind_eq_error, induce_sort_ltype_loop_fault he]

theorem induce_sort_stype_loop_fault {e : fault} (he : e ≠ fault.out_of_bounds)
    (string : List Int) (t : List Char) :
    ∀ (k : Nat) (st : List Int × bucket_array),
      induce_sort_stype_loop string t k st = .error e ↔ False := by
  intro k
  induction k with
  | zero => intro st; simp [induce_sort_stype_loop]
  | succ k ih =>
    intro st
    obtain ⟨sa, b⟩ := st
    simp only [induce_sort_stype_loop, bind_eq_error, vec_get_fault he, false_or, iff_false,
      not_exists, not_and]
    intro v _
    split_ifs
    · simp only [bind_eq_error, vec_get_fault he, false_or, not_exists, not_and]
      intro c _
      split_ifs
      · simp [bind_eq_error, vec_get_fault he, vec_set_fault he, next_tail_fault he, ih]
      · simp [ih]
    · simp [ih]

theorem induce_sort_stype_fault {e : fault} (he : e ≠ fault.out_of_bounds)
    (string sa : List Int) (t : List Char) (buckets : bucket_array) :
    induce_sort_stype string sa t buckets = .error e ↔ False := by
  simp [induce_sort_stype, bind_eq_error, induce_sort_stype_loop_fault he]

theorem summarize_names_fault {e : fault} (he : e ≠ fault.out_of_bounds)
    (string guessed_sa : List Int) (t : List Char) :
    ∀ (k : Nat) (i : Int) (st : naming),
      summarize_names string guessed_sa t k i st = .error e ↔ False := by
  intro k
  induction k with
  | zero => intro i st; simp [summarize_names]
  | succ k ih =>
    intro i st
    simp [summarize_names, bind_eq_error, vec_get_fault he, vec_set_fault he,
      lms_strings_equal_fault he, ih]

theorem summarize_fault {e : fault} (he : e ≠ fault.out_of_bounds)
    (string guessed_sa : List Int) (t : List Char) :
    summarize string guessed_sa t = .error e ↔ False := by
  simp [summarize, bind_eq_error, vec_get_fault he, vec_set_fault he,
    summarize_names_fault he]

theorem place_names_fault {e : fault} (he : e ≠ fault.out_of_bounds) (sum_string : List Int) :
    ∀ (k : Nat) (i : Int) (sum_sa : List Int),
      place_names sum_string k i sum_sa = .error e ↔ False := by
  intro k
  induction k with
  | zero => intro i sum_sa; simp [place_names]
  | succ k ih =>
    intro i sum_sa
    simp [place_names, bind_eq_error, vec_get_fault he, vec_set_fault he, ih]

theorem accurate_lms_loop_fault {e : fault} (he : e ≠ fault.out_of_bounds)
    (string sum_sa sum_sa_offsets : List Int) :
    ∀ (fuel : Nat) (i : Int) (st : List Int × bucket_array), 1 ≤ fuel →
      (0 < i → (sum_sa.length : Int) + 1 ≤ i + fuel) →
      (accurate_lms_loop string sum_sa sum_sa_offsets fuel i st = .error e ↔ False) := by
  intro fuel
  induction fuel with
  | zero => intro i st h; omega
  | succ fuel ih =>
    intro i st _ hf
    obtain ⟨so, b⟩ := st
    unfold accurate_lms_loop
    split_ifs with hi
    · simp only [bind_eq_error, vec_get_fault he, false_or, iff_false, not_exists, not_and]
      intro r hr
      obtain ⟨k, hk, hlt, _⟩ := vec_get_ok hr
      have hf2 := hf hi
      push_cast at hf2
      have key : ∀ st, (accurate_lms_loop string sum_sa sum_sa_offsets fuel (i + 1) st
          = .error e ↔ False) :=
        fun st => ih (i + 1) st (by omega) (fun _ => by omega)
      simp [bind_eq_error, vec_get_fault he, vec_set_fault he, next_tail_fault he, key]
    · simp

theorem accurate_lms_sort_fault {e : fault} (he : e ≠ fault.out_of_bounds)
    (string sum_sa sum_sa_offsets : List Int) (buckets : bucket_array) :
    accurate_lms_sort string sum_sa sum_sa_offsets buckets = .error e ↔ False := by
  have key : ∀ st, (accurate_lms_loop string sum_sa sum_sa_offsets (sum_sa.length + 1)
      ((string.length : Int) - 1) st = .error e ↔ False) :=
    fun st => accurate_lms_loop_fault he string sum_sa sum_sa_offsets (sum_sa.length + 1)
      ((string.length : Int) - 1) st (by omega) (fun _ => by push_cast; omega)
  simp [accurate_lms_sort, bind_eq_error, vec_set_fault he, key]

theorem make_summary_suffix_array_fault {e : fault} (he : e ≠ fault.out_of_bounds)
    (construct_rec : List Int → res (List Int))
    (sum_string : List Int) (alpha_size : Int) (h : (sum_string.length : Int) ≤ alpha_size) :
    make_summary_suffix_array construct_rec sum_string alpha_size = .error e ↔ False := by
  rw [make_summary_suffix_array_direct _ _ _ h]
  simp [bind_eq_error, vec_set_fault he, place_names_fault he]

theorem construct_fuel_fault {e : fault} (he : e ≠ fault.out_of_bounds) (fuel : Nat)
    (string : List Int) (h : construct_fuel (fuel + 1) string = .error e) :
    make_buckets string = .error e := by
  simp only [construct_fuel, bind_eq_error, map_char_types_fault he, guess_lms_fault he,
    induce_sort_ltype_fault he, induce_sort_stype_fault he, summarize_fault he,
    accurate_lms_sort_fault he, false_or] at h
  rcases h with h | ⟨b, _, t, _, ⟨g, b1⟩, _, ⟨g1, b2⟩, _, ⟨g2, b3⟩, _, ⟨ss, al, off⟩, hsum, h⟩
  · exact h
  · exfalso
    obtain ⟨h1, h2, _⟩ := summarize_ok hsum
    simp only [bind_eq_error] at h
    rcases h with h | ⟨ssa, _, h⟩
    · exact (make_summary_suffix_array_fault he _ _ _ (by omega)).1 h
    · obtain ⟨⟨f, b4⟩, _, h⟩ := h
      simp [bind_eq_error, induce_sort_ltype_fault he, induce_sort_stype_fault he] at h

theorem count_chars_fuel :
    ∀ (string : List Int) (buckets : bucket_array),
      count_chars string buckets = .error fault.out_of_fuel ↔ False := by
  intro string
  induction string with
  | nil => intro buckets; simp [count_chars]
  | cons ch rest ih =>
    intro buckets
    unfold count_chars
    split_ifs
    · simp
    · exact ih buckets
    · simp [bind_eq_error, vec_get_fault, vec_set_fault, ih]

/-- The budgets of the model are never the reason why `construct` stops. -/
theorem construct_not_out_of_fuel (string : List Int) :
    construct string ≠ .error fault.out_of_fuel := by
  intro h
  have h2 := construct_fuel_fault (by decide) _ _ h
  simp [make_buckets, bind_eq_error, count_chars_fuel] at h2

theorem construct_fuel_range (fuel : Nat) (string : List Int)
    (h : construct_fuel fuel string = .error fault.range_error) :
    make_buckets string = .error fault.range_error := by
  cases fuel with
  | zero => simp [construct_fuel] at h
  | succ fuel => exact construct_fuel_fault (by decide) _ _ h

/-! ## The bucket constructor -/

theorem vec_get_in_bounds {α : Type} (v : List α) (i : Int) (h0 : 0 ≤ i) (h1 : i < v.length) :
    ∃ x, vec_get v i = .ok x := by
  obtain ⟨k, rfl⟩ := Int.eq_ofNat_of_zero_le h0
  have hk : k < v.length := by omega
  rw [vec_get_natCast]
  have : v.get? k = some (v.get ⟨k, hk⟩) := List.get?_eq_get hk
  rw [this]
  exact ⟨_, rfl⟩

theorem vec_set_in_bounds {α : Type} (v : List α) (i : Int) (x : α) (h0 : 0 ≤ i)
    (h1 : i < v.length) : ∃ w, vec_set v i x = .ok w ∧ w.length = v.length := by
  obtain ⟨k, rfl⟩ := Int.eq_ofNat_of_zero_le h0
  have hk : k < v.length := by omega
  rw [vec_set_natCast, if_pos hk]
  exact ⟨_, rfl, by simp⟩

theorem count_chars_step (ch : Int) (rest : List Int) (buckets : bucket_array)
    (hb : buckets.length = 95) (h1 : 32 ≤ ch) (h2 : ch ≤ 126) :
    ∃ b2 : bucket_array, b2.length = 95 ∧
      count_chars (ch :: rest) buckets = count_chars rest b2 := by
  obtain ⟨b, hg⟩ := vec_get_in_bounds buckets (ch - min_char)
    (by unfold min_char; omega) (by unfold min_char; omega)
  obtain ⟨w, hw, hl⟩ := vec_set_in_bounds buckets (ch - min_char) { b with size := b.size + 1 }
    (by unfold min_char; omega) (by unfold min_char; omega)
  refine ⟨w, by omega, ?_⟩
  have hguard : ¬ (ch ≠ 0 ∧ (ch < min_char ∨ ch > max_char)) := by
    unfold min_char max_char; omega
  rw [count_chars, if_neg hguard, if_neg (by omega), hg]
  simp only [bind, Except.bind, hw]

theorem count_chars_accepts :
    ∀ (string : List Int) (buckets : bucket_array), buckets.length = 95 →
      (∀ x ∈ string, 32 ≤ x ∧ x ≤ 126) →
      ∃ b2 : bucket_array, b2.length = 95 ∧ count_chars string buckets = .ok b2 := by
  intro string
  induction string with
  | nil => intro buckets hb _; exact ⟨buckets, hb, rfl⟩
  | cons ch rest ih =>
    intro buckets hb hs
    have hch := hs ch (List.mem_cons_self _ _)
    obtain ⟨b2, hb2, he⟩ := count_chars_step ch rest buckets hb hch.1 hch.2
    rw [he]
    exact ih b2 hb2 (fun x hx => hs x (List.mem_cons_of_mem _ hx))

theorem count_chars_rejects :
    ∀ (pre post : List Int) (c : Int) (buckets : bucket_array), buckets.length = 95 →
      (∀ x ∈ pre, 32 ≤ x ∧ x ≤ 126) → c ≠ 0 → (c < 32 ∨ 126 < c) →
      count_chars (pre ++ c :: post) buckets = .error fault.range_error := by
  intro pre
  induction pre with
  | nil =>
    intro post c buckets _ _ hc0 hc
    have hguard : c ≠ 0 ∧ (c < min_char ∨ c > max_char) := by
      unfold min_char max_char; exact ⟨hc0, by omega⟩
    rw [List.nil_append, count_chars, if_pos hguard]
  | cons ch rest ih =>
    intro post c buckets hb hs hc0 hc
    have hch := hs ch (List.mem_cons_self _ _)
    obtain ⟨b2, hb2, he⟩ := count_chars_step ch (rest ++ c :: post) buckets hb hch.1 hch.2
    rw [List.cons_append, he]
    exact ih post c b2 hb2 (fun x hx => hs x (List.mem_cons_of_mem _ hx)) hc0 hc

theorem count_chars_accepts_zero :
    ∀ (string : List Int) (buckets : bucket_array), buckets.length = 95 →
      (∀ x ∈ string, x = 0 ∨ (32 ≤ x ∧ x ≤ 126)) →
      ∃ b2 : bucket_array, b2.length = 95 ∧ count_chars string buckets = .ok b2 := by
  intro string
  induction string with
  | nil => intro buckets hb _; exact ⟨buckets, hb, rfl⟩
  | cons ch rest ih =>
    intro buckets hb hs
    have hrest : ∀ x ∈ rest, x = 0 ∨ (32 ≤ x ∧ x ≤ 126) :=
      fun x hx => hs x (List.mem_cons_of_mem _ hx)
    rcases hs ch (List.mem_cons_self _ _) with hz | hch
    · subst hz
      have hguard : ¬ ((0 : Int) ≠ 0 ∧ ((0 : Int) < min_char ∨ (0 : Int) > max_char)) := by
        simp
      rw [count_chars, if_neg hguard, if_pos rfl]
      exact ih buckets hb hrest
    · obtain ⟨b2, hb2, he⟩ := count_chars_step ch rest buckets hb hch.1 hch.2
      rw [he]
      exact ih b2 hb2 hrest

theorem count_chars_rejects_mem :
    ∀ (string : List Int) (c : Int) (buckets : bucket_array), buckets.length = 95 →
      c ∈ string → c ≠ 0 → (c < 32 ∨ 126 < c) →
      count_chars string buckets = .error fault.range_error := by
  intro string
  induction string with
  | nil => intro c buckets _ hc; simp at hc
  | cons ch rest ih =>
    intro c buckets hb hc hc0 hout
    by_cases hguard : ch ≠ 0 ∧ (ch < min_char ∨ ch > max_char)
    · rw [count_chars, if_pos hguard]
    · have hcr : c ∈ rest := by
        rcases List.mem_cons.1 hc with h | h
        · subst h
          exact absurd ⟨hc0, by unfold min_char max_char; omega⟩ hguard
        · exact h
      by_cases hz : ch = 0
      · rw [count_chars, if_neg hguard, if_pos hz]
        exact ih c buckets hb hcr hc0 hout
      · have hch : 32 ≤ ch ∧ ch ≤ 126 := by
          unfold min_char max_char at hguard
          omega
        obtain ⟨b2, hb2, he⟩ := count_chars_step ch rest buckets hb hch.1 hch.2
        rw [he]
        exact ih c b2 hb2 hcr hc0 hout

theorem make_buckets_range_error_iff (string : List Int) :
    make_buckets string = .error fault.range_error ↔
      ∃ c ∈ string, c ≠ 0 ∧ (c < 32 ∨ 126 < c) := by
  constructor
  · intro h
    by_contra hno
    have hall : ∀ x ∈ string, x = 0 ∨ (32 ≤ x ∧ x ≤ 126) := by
      intro x hx
      by_contra hx2
      exact hno ⟨x, hx, by omega, by omega⟩
    obtain ⟨b2, _, hb⟩ := count_chars_accepts_zero string empty_buckets
      (by simp [empty_buckets]) hall
    simp [make_buckets, hb, bind, Except.bind] at h
  · rintro ⟨c, hc, hc0, hout⟩
    simp [make_buckets, count_chars_rejects_mem string c empty_buckets
      (by simp [empty_buckets]) hc hc0 hout, bind, Except.bind]

theorem empty_buckets_length : empty_buckets.length = 95 := by
  simp [empty_buckets]

theorem construct_of_make_buckets_error (string : List Int) (e : fault)
    (h : make_buckets string = .error e) : construct string = .error e := by
  simp [construct, construct_fuel, h, bind, Except.bind]

/-- Range check of the bucket constructor: a string `s` of characters in
`32..126` never makes `construct` fail with a range error (the boundary values
32 and 126 are accepted), and when such an `s` is followed by a non-zero value
`c` outside `32..126`, whatever comes after it, the bucket constructor raises a
range error and `construct` fails with it, returning no array. -/
theorem range_error_after_valid_prefix (s post : List Int) (c : Int)
    (hs : ∀ x ∈ s, 32 ≤ x ∧ x ≤ 126) (hc0 : c ≠ 0) (hc : c < 32 ∨ 126 < c) :
    make_buckets (s ++ c :: post) = .error fault.range_error ∧
      construct (s ++ c :: post) = .error fault.range_error ∧
      make_buckets s ≠ .error fault.range_error ∧
      construct s ≠ .error fault.range_error := by
  have h1 : make_buckets (s ++ c :: post) = .error fault.range_error := by
    simp [make_buckets, count_chars_rejects s post c empty_buckets empty_buckets_length hs hc0 hc,
      bind, Except.bind]
  have h2 : make_buckets s ≠ .error fault.range_error := by
    obtain ⟨b2, _, hb⟩ := count_chars_accepts s empty_buckets empty_buckets_length hs
    simp [make_buckets, hb, bind, Except.bind]
  exact ⟨h1, construct_of_make_buckets_error _ _ h1, h2,
    fun h => h2 (construct_fuel_range _ _ h)⟩

/-! ## The direct branch of `make_summary_suffix_array` -/

theorem vec_get_nat_lt {α : Type} (v : List α) (k : Nat) (h : k < v.length) :
    vec_get v (k : Int) = .ok v[k] := by
  rw [vec_get_natCast]
  have : v.get? k = some v[k] := by simp [List.getElem?_eq_getElem h]
  rw [this]

theorem vec_set_int {α : Type} (v : List α) (z : Int) (x : α) (h0 : 0 ≤ z)
    (h1 : z < v.length) : vec_set v z x = .ok (v.set z.toNat x) := by
  obtain ⟨k, rfl⟩ := Int.eq_ofNat_of_zero_le h0
  rw [vec_set_natCast, if_pos (by omega)]
  simp

theorem place_names_spec (t : List Int) (hnd : t.Nodup) :
    ∀ (k i : Nat) (sa : List Int), i + k = t.length →
      (∀ v ∈ t, 0 ≤ v ∧ v + 1 < (sa.length : Int)) →
      ∃ r, place_names t k (i : Int) sa = .ok r ∧ r.length = sa.length ∧
        (∀ j (hj : j < t.length), i ≤ j → r[(t[j] + 1).toNat]? = some (j : Int)) ∧
        (∀ p, (∀ j (hj : j < t.length), i ≤ j → (t[j] + 1).toNat ≠ p) → r[p]? = sa[p]?) := by
  intro k
  induction k with
  | zero =>
    intro i sa hik _
    refine ⟨sa, rfl, rfl, ?_, fun p _ => rfl⟩
    intro j hj hij
    omega
  | succ k ih =>
    intro i sa hik hsa
    have hi : i < t.length := by omega
    have hti := hsa t[i] (List.getElem_mem hi)
    have hset := vec_set_int sa (t[i] + 1) (i : Int) (by omega) hti.2
    obtain ⟨r, hr, hlen, hA, hB⟩ := ih (i + 1) (sa.set (t[i] + 1).toNat (i : Int))
      (by omega) (by simpa using hsa)
    refine ⟨r, ?_, by simpa using hlen, ?_, ?_⟩
    · rw [place_names, vec_get_nat_lt t i hi]
      simp only [bind, Except.bind, hset]
      have e : ((i : Int) + 1) = ((i + 1 : Nat) : Int) := by push_cast; rfl
      rw [e]
      exact hr
    · intro j hj hij
      rcases Nat.eq_or_lt_of_le hij with h | h
      · subst h
        rw [hB]
        · rw [List.getElem?_set]
          have : (t[i] + 1).toNat < sa.length := by omega
          simp [this]
        · intro j2 hj2 hij2 heq
          have h1 := hsa t[j2] (List.getElem_mem hj2)
          have h2 : t[j2] = t[i] := by omega
          have := (List.Nodup.getElem_inj_iff hnd).1 h2
          omega
      · exact hA j hj h
    · intro p hp
      rw [hB p (fun j hj hij => hp j hj (by omega))]
      rw [List.getElem?_set]
      have := hp i hi (le_refl _)
      simp [this]

theorem mem_of_nodup_of_range (t : List Int) (hnd : t.Nodup)
    (hr : ∀ v ∈ t, 0 ≤ v ∧ v < (t.length : Int)) (v : Int) (h0 : 0 ≤ v)
    (h1 : v < (t.length : Int)) : v ∈ t := by
  have hsub : t ⊆ (List.range t.length).map Int.ofNat := by
    intro x hx
    obtain ⟨k, rfl⟩ := Int.eq_ofNat_of_zero_le (hr x hx).1
    have := (hr _ hx).2
    exact List.mem_map.2 ⟨k, List.mem_range.2 (by omega), rfl⟩
  have hperm := (List.subperm_of_subset hnd hsub).perm_of_length_le (by simp)
  obtain ⟨k, rfl⟩ := Int.eq_ofNat_of_zero_le h0
  exact hperm.mem_iff.2 (List.mem_map.2 ⟨k, List.mem_range.2 (by omega), rfl⟩)

theorem direct_placement_facts (t : List Int) (hnd : t.Nodup)
    (hr : ∀ v ∈ t, 0 ≤ v ∧ v < (t.length : Int)) :
    ∃ r, (vec_set (List.replicate (t.length + 1) (-1 : Int)) 0 (t.length : Int)
          >>= place_names t t.length 0) = .ok r ∧
      r.length = t.length + 1 ∧ r[0]? = some (t.length : Int) ∧
      (∀ k (hk : k < t.length), r[(t[k] + 1).toNat]? = some (k : Int)) := by
  have h0 : vec_set (List.replicate (t.length + 1) (-1 : Int)) 0 (t.length : Int)
      = .ok ((List.replicate (t.length + 1) (-1 : Int)).set 0 (t.length : Int)) := by
    have := vec_set_int (List.replicate (t.length + 1) (-1 : Int)) 0 (t.length : Int)
      (le_refl _) (by simp)
    simpa using this
  obtain ⟨r, h1, h2, h3, h4⟩ := place_names_spec t hnd t.length 0
    ((List.replicate (t.length + 1) (-1 : Int)).set 0 (t.length : Int)) (by simp)
    (fun v hv => by have := hr v hv; simp; omega)
  refine ⟨r, ?_, by simpa using h2, ?_, fun k hk => h3 k hk (Nat.zero_le _)⟩
  · rw [h0]
    simpa [bind, Except.bind] using h1
  · rw [h4 0]
    · simp
    · intro j hj _
      have := hr t[j] (List.getElem_mem hj)
      omega

theorem direct_placement_slot (t r : List Int) (hnd : t.Nodup)
    (hr : ∀ v ∈ t, 0 ≤ v ∧ v < (t.length : Int))
    (h3 : ∀ k (hk : k < t.length), r[(t[k] + 1).toNat]? = some (k : Int))
    (p : Nat) (h1 : 1 ≤ p) (h2 : p ≤ t.length) :
    ∃ k, ∃ hk : k < t.length, t[k] = (p : Int) - 1 ∧ r[p]? = some (k : Int) := by
  have hm := mem_of_nodup_of_range t hnd hr ((p : Int) - 1) (by omega) (by omega)
  obtain ⟨k, hk, hkv⟩ := List.getElem_of_mem hm
  refine ⟨k, hk, hkv, ?_⟩
  have := h3 k hk
  rw [hkv] at this
  have e : ((p : Int) - 1 + 1).toNat = p := by omega
  rw [e] at this
  exact this

/-! ## Bucket regions -/

theorem chars_below_succ (s : List Int) (c : Int) :
    chars_below s (c + 1) = chars_below s c + (s.count c : Int) := by
  unfold chars_below
  induction s with
  | nil => simp
  | cons x rest ih =>
    simp only [List.countP_cons, List.count_cons, Nat.cast_add, ih]
    by_cases h1 : x < c
    · have h2 : x < c + 1 := by omega
      have h3 : ¬ x = c := by omega
      simp [h1, h2, h3]
      ring
    · by_cases h3 : x = c
      · subst h3
        simp
        ring
      · have h2 : ¬ x < c + 1 := by omega
        simp [h1, h2, h3]

theorem chars_below_mono (s : List Int) (c d : Int) (h : c ≤ d) :
    chars_below s c ≤ chars_below s d := by
  unfold chars_below
  exact_mod_cast List.countP_mono_left (fun x _ hx => by
    simp only [decide_eq_true_eq] at hx ⊢
    omega)

theorem chars_below_min (s : List Int) (hs : ∀ x ∈ s, 32 ≤ x ∧ x ≤ 126) :
    chars_below s 32 = 0 := by
  unfold chars_below
  have : s.countP (fun x => decide (x < 32)) = 0 := by
    rw [List.countP_eq_zero]
    intro x hx
    have := hs x hx
    simp only [decide_eq_true_eq]
    omega
  rw [this]
  rfl

theorem chars_below_max (s : List Int) (hs : ∀ x ∈ s, 32 ≤ x ∧ x ≤ 126) :
    chars_below s 127 = s.length := by
  unfold chars_below
  have : s.countP (fun x => decide (x < 127)) = s.length := by
    rw [List.countP_eq_length]
    intro x hx
    have := hs x hx
    simp only [decide_eq_true_eq]
    omega
  rw [this]

theorem chars_below_le_length (s : List Int) (c : Int) : chars_below s c ≤ s.length := by
  unfold chars_below
  exact_mod_cast List.countP_le_length _

theorem count_chars_sizes :
    ∀ (s : List Int) (b : bucket_array), b.length = 95 → (∀ x ∈ s, 32 ≤ x ∧ x ≤ 126) →
      ∃ b2 : bucket_array, count_chars s b = .ok b2 ∧ b2.length = 95 ∧
        ∀ (k : Nat) (x : bucket), b[k]? = some x →
          b2[k]? = some { x with size := x.size + (s.count (32 + (k : Int)) : Int) } := by
  intro s
  induction s with
  | nil =>
    intro b hb _
    exact ⟨b, rfl, hb, fun k x hx => by simpa using hx⟩
  | cons ch rest ih =>
    intro b hb hs
    have hch := hs ch (List.mem_cons_self _ _)
    obtain ⟨k0, hk0⟩ : ∃ k0 : Nat, ch = 32 + (k0 : Int) := ⟨(ch - 32).toNat, by omega⟩
    have hk95 : k0 < 95 := by omega
    have hidx : ch - min_char = (k0 : Int) := by unfold min_char; omega
    have hguard : ¬ (ch ≠ 0 ∧ (ch < min_char ∨ ch > max_char)) := by
      unfold min_char max_char; omega
    have hget := vec_get_nat_lt b k0 (by omega)
    have hset := vec_set_int b (k0 : Int) { b[k0] with size := b[k0].size + 1 }
      (by omega) (by omega)
    obtain ⟨b2, h1, h2, h3⟩ := ih (b.set k0 { b[k0] with size := b[k0].size + 1 })
      (by simpa using hb) (fun x hx => hs x (List.mem_cons_of_mem _ hx))
    refine ⟨b2, ?_, h2, ?_⟩
    · rw [count_chars, if_neg hguard, if_neg (by omega), hidx, hget]
      simp only [bind, Except.bind, hset, Int.toNat_ofNat]
      exact h1
    · intro k x hx
      have hk : k < b.length := by
        by_contra hlt
        rw [List.getElem?_eq_none (by omega)] at hx
        simp at hx
      have hxk : b[k] = x := by
        rw [List.getElem?_eq_getElem hk] at hx
        simpa using hx
      by_cases hkk : k0 = k
      · subst hkk
        have := h3 k0 { b[k0] with size := b[k0].size + 1 } (by simp [List.getElem?_set, hk])
        rw [this, ← hxk, ← hk0]
        simp only [List.count_cons_self, Nat.cast_add, Nat.cast_one, Option.some.injEq]
        congr 1
        ring
      · have := h3 k x (by rw [List.getElem?_set]; simp [hkk, hx])
        rw [this]
        have hne : ¬ ch = 32 + (k : Int) := by omega
        have hne2 : ¬ (ch == 32 + (k : Int)) = true := by simpa using hne
        simp [List.count_cons, hne2]

theorem reset_heads_from_get (s : List Int) :
    ∀ (bs : bucket_array) (base o : Int), o = 1 + chars_below s base →
      (∀ (j : Nat) (x : bucket), bs[j]? = some x → x.size = (s.count (base + (j : Int)) : Int)) →
      ∀ (k : Nat) (x : bucket), bs[k]? = some x →
        (reset_heads_from o bs)[k]? = some { x with head := 1 + chars_below s (base + (k : Int)) }
    := by
  intro bs
  induction bs with
  | nil => intro base o _ _ k x hx; simp at hx
  | cons b rest ih =>
    intro base o ho hsz k x hx
    cases k with
    | zero =>
      simp only [List.getElem?_cons_zero, Option.some.injEq] at hx
      subst hx
      simp [reset_heads_from, ho]
    | succ k =>
      simp only [List.getElem?_cons_succ] at hx
      have hb := hsz 0 b (by simp)
      have := ih (base + 1) (o + b.size)
        (by rw [chars_below_succ, ho, hb]; simp; ring)
        (fun j y hy => by
          have := hsz (j + 1) y (by simpa using hy)
          rw [this]; push_cast; congr 2; ring)
        k x hx
      simp only [reset_heads_from, List.getElem?_cons_succ, this]
      push_cast
      ring_nf

theorem reset_tails_from_get (s : List Int) :
    ∀ (bs : bucket_array) (base o : Int), o = 1 + chars_below s base →
      (∀ (j : Nat) (x : bucket), bs[j]? = some x → x.size = (s.count (base + (j : Int)) : Int)) →
      ∀ (k : Nat) (x : bucket), bs[k]? = some x →
        (reset_tails_from o bs)[k]? = some { x with tail := chars_below s (base + (k : Int) + 1) }
    := by
  intro bs
  induction bs with
  | nil => intro base o _ _ k x hx; simp at hx
  | cons b rest ih =>
    intro base o ho hsz k x hx
    have hb := hsz 0 b (by simp)
    cases k with
    | zero =>
      simp only [List.getElem?_cons_zero, Option.some.injEq] at hx
      subst hx
      simp only [reset_tails_from, List.getElem?_cons_zero, Option.some.injEq]
      rw [chars_below_succ, ho, hb]
      simp
      ring
    | succ k =>
      simp only [List.getElem?_cons_succ] at hx
      have := ih (base + 1) (o + b.size)
        (by rw [chars_below_succ, ho, hb]; simp; ring)
        (fun j y hy => by
          have := hsz (j + 1) y (by simpa using hy)
          rw [this]; push_cast; congr 2; ring)
        k x hx
      simp only [reset_tails_from, List.getElem?_cons_succ, this]
      push_cast
      congr 3
      ring

theorem reset_heads_from_length :
    ∀ (bs : bucket_array) (o : Int), (reset_heads_from o bs).length = bs.length := by
  intro bs
  induction bs with
  | nil => intro o; rfl
  | cons b rest ih => intro o; simp [reset_heads_from, ih]

theorem reset_tails_from_length :
    ∀ (bs : bucket_array) (o : Int), (reset_tails_from o bs).length = bs.length := by
  intro bs
  induction bs with
  | nil => intro o; rfl
  | cons b rest ih => intro o; simp [reset_tails_from, ih]

theorem bucket_at_of_get {b : bucket_array} {k : Nat} {x : bucket} (h : b[k]? = some x) :
    bucket_at b (32 + (k : Int)) = x := by
  unfold bucket_at min_char
  have : (32 + (k : Int) - 32).toNat = k := by omega
  rw [this, List.getD_eq_getElem?_getD, h]
  rfl

theorem get_of_length_95 (b : bucket_array) (hb : b.length = 95) (c : Int) (h1 : 32 ≤ c)
    (h2 : c ≤ 126) : ∃ k : Nat, c = 32 + (k : Int) ∧ b[k]? = some (bucket_at b c) := by
  refine ⟨(c - 32).toNat, by omega, ?_⟩
  have hk : (c - 32).toNat < b.length := by omega
  unfold bucket_at min_char
  rw [List.getD_eq_getElem?_getD, List.getElem?_eq_getElem hk]
  rfl

theorem reset_heads_get (s : List Int) (hs : ∀ x ∈ s, 32 ≤ x ∧ x ≤ 126) (b : bucket_array)
    (hb : sizes_count s b) (k : Nat) (x : bucket) (hx : b[k]? = some x) :
    (reset_heads b)[k]? = some { x with head := 1 + chars_below s (32 + (k : Int)) } :=
  reset_heads_from_get s b 32 1 (by rw [chars_below_min s hs]; rfl) hb.2 k x hx

theorem reset_tails_get (s : List Int) (hs : ∀ x ∈ s, 32 ≤ x ∧ x ≤ 126) (b : bucket_array)
    (hb : sizes_count s b) (k : Nat) (x : bucket) (hx : b[k]? = some x) :
    (reset_tails b)[k]? = some { x with tail := chars_below s (32 + (k : Int) + 1) } :=
  reset_tails_from_get s b 32 1 (by rw [chars_below_min s hs]; rfl) hb.2 k x hx

theorem reset_heads_sizes (s : List Int) (hs : ∀ x ∈ s, 32 ≤ x ∧ x ≤ 126) (b : bucket_array)
    (hb : sizes_count s b) : sizes_count s (reset_heads b) := by
  refine ⟨by rw [reset_heads, reset_heads_from_length]; exact hb.1, ?_⟩
  intro j y hy
  have hj : j < b.length := by
    by_contra hlt
    rw [List.getElem?_eq_none (by rw [reset_heads, reset_heads_from_length]; omega)] at hy
    simp at hy
  have := reset_heads_get s hs b hb j b[j] (List.getElem?_eq_getElem hj)
  rw [this] at hy
  simp only [Option.some.injEq] at hy
  rw [← hy]
  exact hb.2 j b[j] (List.getElem?_eq_getElem hj)

theorem reset_tails_sizes (s : List Int) (hs : ∀ x ∈ s, 32 ≤ x ∧ x ≤ 126) (b : bucket_array)
    (hb : sizes_count s b) : sizes_count s (reset_tails b) := by
  refine ⟨by rw [reset_tails, reset_tails_from_length]; exact hb.1, ?_⟩
  intro j y hy
  have hj : j < b.length := by
    by_contra hlt
    rw [List.getElem?_eq_none (by rw [reset_tails, reset_tails_from_length]; omega)] at hy
    simp at hy
  have := reset_tails_get s hs b hb j b[j] (List.getElem?_eq_getElem hj)
  rw [this] at hy
  simp only [Option.some.injEq] at hy
  rw [← hy]
  exact hb.2 j b[j] (List.getElem?_eq_getElem hj)

theorem make_buckets_get (s : List Int) (hs : ∀ x ∈ s, 32 ≤ x ∧ x ≤ 126) :
    ∃ b : bucket_array, make_buckets s = .ok b ∧ sizes_count s b ∧
      ∀ k : Nat, k < 95 →
        b[k]? = some ⟨1 + chars_below s (32 + (k : Int)), (s.count (32 + (k : Int)) : Int),
          chars_below s (32 + (k : Int) + 1)⟩ := by
  obtain ⟨b2, h1, h2, h3⟩ := count_chars_sizes s empty_buckets empty_buckets_length hs
  have hsz : sizes_count s b2 := by
    refine ⟨h2, ?_⟩
    intro j x hx
    have hj : j < 95 := by
      by_contra hlt
      rw [List.getElem?_eq_none (by omega)] at hx
      simp at hx
    have he : empty_buckets[j]? = some ⟨0, 0, 0⟩ := by
      unfold empty_buckets
      rw [List.getElem?_replicate]
      simp [hj]
    have := h3 j _ he
    rw [this] at hx
    simp only [Option.some.injEq] at hx
    rw [← hx]
    simp
  have hsz2 := reset_heads_sizes s hs b2 hsz
  refine ⟨reset_tails (reset_heads b2), ?_, reset_tails_sizes s hs _ hsz2, ?_⟩
  · simp [make_buckets, h1, bind, Except.bind]
  · intro k hk
    have he : empty_buckets[k]? = some ⟨0, 0, 0⟩ := by
      unfold empty_buckets
      rw [List.getElem?_replicate]
      simp [hk]
    have e1 := h3 k _ he
    have e2 := reset_heads_get s hs b2 hsz k _ e1
    have e3 := reset_tails_get s hs _ hsz2 k _ e2
    rw [e3]
    simp

theorem chars_below_nonneg (s : List Int) (c : Int) : 0 ≤ chars_below s c := by
  unfold chars_below
  exact Int.ofNat_nonneg _

theorem region_search (s : List Int) (hs : ∀ x ∈ s, 32 ≤ x ∧ x ≤ 126) (p : Int) (hp : 1 ≤ p) :
    ∀ d : Nat, p ≤ chars_below s (32 + (d : Int)) →
      ∃ k : Nat, k < d ∧ chars_below s (32 + (k : Int)) < p ∧
        p ≤ chars_below s (32 + (k : Int) + 1) := by
  intro d
  induction d with
  | zero =>
    intro h
    have := chars_below_min s hs
    simp only [Nat.cast_zero, add_zero] at h
    omega
  | succ d ih =>
    intro h
    by_cases hd : p ≤ chars_below s (32 + (d : Int))
    · obtain ⟨k, hk, h1, h2⟩ := ih hd
      exact ⟨k, by omega, h1, h2⟩
    · refine ⟨d, by omega, by omega, ?_⟩
      have e : (32 : Int) + ((d + 1 : Nat) : Int) = 32 + (d : Int) + 1 := by push_cast; ring
      rw [e] at h
      exact h

theorem sizes_count_of_bucket_at (s : List Int) (b b2 : bucket_array) (hb2 : b2.length = 95)
    (hb : ∀ c, 32 ≤ c → c ≤ 126 → (bucket_at b c).size = (s.count c : Int))
    (h : ∀ c, 32 ≤ c → c ≤ 126 → (bucket_at b2 c).size = (bucket_at b c).size) :
    sizes_count s b2 := by
  refine ⟨hb2, ?_⟩
  intro j x hx
  have hj : j < 95 := by
    by_contra hlt
    rw [List.getElem?_eq_none (by omega)] at hx
    simp at hx
  have e := bucket_at_of_get hx
  rw [← e, h _ (by omega) (by omega), hb _ (by omega) (by omega)]

/-! ## Seeding by `guess_lms` -/

theorem lms_char_total (t : List Char) (i : Nat) (hi : i < t.length) :
    ∃ r, lms_char t (i : Int) = .ok r := by
  unfold lms_char
  by_cases h0 : (i : Int) = 0
  · exact ⟨false, by rw [if_pos h0]⟩
  · rw [if_neg h0, vec_get_nat_lt t i hi]
    simp only [bind, Except.bind]
    by_cases hs : t[i] ≠ s_type
    · exact ⟨false, by rw [if_pos hs]⟩
    · rw [if_neg hs]
      have hi1 : i - 1 < t.length := by omega
      have e : (i : Int) - 1 = ((i - 1 : Nat) : Int) := by omega
      rw [e, vec_get_nat_lt t (i - 1) hi1]
      exact ⟨_, rfl⟩

theorem lms_before_succ (s : List Int) (t : List Char) (c : Int) (i : Nat) :
    lms_before s t c (i + 1) = lms_before s t c i +
      (if lms_char t (i : Int) = .ok true ∧ s[i]? = some c then 1 else 0) := by
  unfold lms_before
  rw [List.range_succ, List.countP_append]
  congr 1
  by_cases h1 : lms_char t (i : Int) = .ok true
  · by_cases h2 : s[i]? = some c
    · simp [h1, h2]
    · simp [h1, h2]
  · simp [h1]

theorem lms_before_mono (s : List Int) (t : List Char) (c : Int) (i j : Nat) (h : i ≤ j) :
    lms_before s t c i ≤ lms_before s t c j := by
  induction j with
  | zero =>
    have : i = 0 := by omega
    subst this
    exact le_refl _
  | succ j ih =>
    rcases Nat.eq_or_lt_of_le h with h1 | h1
    · subst h1; exact le_refl _
    · have := ih (by omega)
      rw [lms_before_succ]
      omega

theorem lms_before_le_count (s : List Int) (t : List Char) (c : Int) :
    ∀ i : Nat, i ≤ s.length → lms_before s t c i ≤ (s.take i).count c := by
  intro i
  induction i with
  | zero => intro _; simp [lms_before]
  | succ i ih =>
    intro hi
    have hlt : i < s.length := by omega
    have h1 := ih (by omega)
    rw [lms_before_succ, List.take_succ, List.getElem?_eq_getElem hlt]
    simp only [Option.toList_some, List.count_append, Option.some.injEq]
    by_cases h2 : s[i] = c
    · subst h2
      simp only [List.count_singleton_self, and_true]
      split_ifs <;> omega
    · simp only [h2, and_false, if_false]
      omega

theorem lms_before_lt_count (s : List Int) (t : List Char) (p : Nat) (hp : p < s.length) :
    lms_before s t s[p] p + 1 ≤ s.count s[p] := by
  have h1 := lms_before_le_count s t s[p] p (by omega)
  have h2 : (s.take (p + 1)).count s[p] ≤ s.count s[p] :=
    List.Sublist.count_le (List.take_sublist _ _) _
  rw [List.take_succ, List.getElem?_eq_getElem hp] at h2
  simp only [Option.toList_some, List.count_append, List.count_singleton_self] at h2
  omega

theorem lms_slot_eq (s : List Int) (t : List Char) (b : bucket_array)
    (hs : ∀ x ∈ s, 32 ≤ x ∧ x ≤ 126) (hb : fresh_buckets s b) (p : Nat) (hp : p < s.length) :
    lms_slot s t b p = chars_below s (s[p] + 1) - (lms_before s t s[p] p : Int) := by
  have hc := hs s[p] (List.getElem_mem hp)
  obtain ⟨k, hk⟩ : ∃ k : Nat, s[p] = 32 + (k : Int) := ⟨(s[p] - 32).toNat, by omega⟩
  have hd : s.getD p 0 = s[p] := by
    rw [List.getD_eq_getElem?_getD, List.getElem?_eq_getElem hp]
    rfl
  unfold lms_slot
  rw [hd, hk, bucket_at_of_get (hb k (by omega))]

theorem lms_slot_bounds (s : List Int) (t : List Char) (b : bucket_array)
    (hs : ∀ x ∈ s, 32 ≤ x ∧ x ≤ 126) (hb : fresh_buckets s b) (p : Nat) (hp : p < s.length) :
    1 + chars_below s s[p] ≤ lms_slot s t b p ∧
      lms_slot s t b p ≤ chars_below s (s[p] + 1) ∧
      1 ≤ lms_slot s t b p ∧ lms_slot s t b p ≤ (s.length : Int) := by
  rw [lms_slot_eq s t b hs hb p hp]
  have h1 := lms_before_lt_count s t p hp
  have h2 := chars_below_succ s s[p]
  have h3 := chars_below_nonneg s s[p]
  have h4 := chars_below_le_length s (s[p] + 1)
  omega

theorem lms_slot_ne (s : List Int) (t : List Char) (b : bucket_array)
    (hs : ∀ x ∈ s, 32 ≤ x ∧ x ≤ 126) (hb : fresh_buckets s b) (q i : Nat) (hqi : q < i)
    (hi : i < s.length) (hq : lms_char t (q : Int) = .ok true) :
    lms_slot s t b q ≠ lms_slot s t b i := by
  have hqn : q < s.length := by omega
  have bq := lms_slot_bounds s t b hs hb q hqn
  have bi := lms_slot_bounds s t b hs hb i hi
  by_cases hc : s[q] = s[i]
  · rw [lms_slot_eq s t b hs hb q hqn, lms_slot_eq s t b hs hb i hi, hc]
    have h1 := lms_before_mono s t s[i] (q + 1) i (by omega)
    rw [lms_before_succ, if_pos ⟨hq, by rw [List.getElem?_eq_getElem hqn, hc]⟩] at h1
    omega
  · rcases lt_or_gt_of_ne hc with h | h
    · have := chars_below_mono s (s[q] + 1) s[i] (by omega)
      omega
    · have := chars_below_mono s (s[i] + 1) s[q] (by omega)
      omega

theorem next_tail_spec (bk : bucket_array) (k : Nat) (x : bucket) (c : Int)
    (hx : bk[k]? = some x) (hk : k < 95) (hc : c = 32 + (k : Int)) :
    next_tail bk c = .ok (x.tail, bk.set k { x with tail := x.tail - 1 }) := by
  have hlen : k < bk.length := by
    by_contra hlt
    rw [List.getElem?_eq_none (by omega)] at hx
    simp at hx
  have hxk : bk[k] = x := by
    rw [List.getElem?_eq_getElem hlen] at hx
    simpa using hx
  have hidx : c % 256 - min_char = (k : Int) := by unfold min_char; omega
  unfold next_tail
  rw [hidx, vec_get_nat_lt bk k hlen, hxk]
  simp only [bind, Except.bind]
  rw [vec_set_int bk (k : Int) _ (by omega) (by omega)]
  simp

theorem seeded_skip (s : List Int) (t : List Char) (b : bucket_array) (i : Nat)
    (sa : List Int) (bk : bucket_array) (h : seeded s t b i sa bk)
    (hl : lms_char t (i : Int) = .ok false) : seeded s t b (i + 1) sa bk := by
  obtain ⟨h1, h2, h3, h4, h5, h6⟩ := h
  have hne : ¬ lms_char t (i : Int) = .ok true := by rw [hl]; simp
  refine ⟨h1, h2, ?_, h4, ?_, ?_⟩
  · intro k x hx
    rw [lms_before_succ, if_neg (fun hh => hne hh.1)]
    exact h3 k x hx
  · intro q hq hlq
    rcases Nat.eq_or_lt_of_le (Nat.le_of_lt_succ hq) with e | e
    · subst e; exact absurd hlq hne
    · exact h5 q e hlq
  · intro k hk1 hk2 hfree
    exact h6 k hk1 hk2 (fun q hq hlq => hfree q (by omega) hlq)

theorem seeded_place (s : List Int) (t : List Char) (b : bucket_array)
    (hs : ∀ x ∈ s, 32 ≤ x ∧ x ≤ 126) (hb : fresh_buckets s b) (i : Nat) (hi : i < s.length)
    (sa : List Int) (bk : bucket_array) (h : seeded s t b i sa bk)
    (hl : lms_char t (i : Int) = .ok true) :
    ∃ sa2 bk2, next_tail bk s[i] = .ok (lms_slot s t b i, bk2) ∧
      vec_set sa (lms_slot s t b i) (i : Int) = .ok sa2 ∧ seeded s t b (i + 1) sa2 bk2 := by
  obtain ⟨h1, h2, h3, h4, h5, h6⟩ := h
  have hc := hs s[i] (List.getElem_mem hi)
  obtain ⟨k0, hk0⟩ : ∃ k0 : Nat, s[i] = 32 + (k0 : Int) := ⟨(s[i] - 32).toNat, by omega⟩
  have hk95 : k0 < 95 := by omega
  have hbk := h3 k0 _ (hb k0 hk95)
  have hslot : lms_slot s t b i
      = chars_below s (32 + (k0 : Int) + 1) - (lms_before s t (32 + (k0 : Int)) i : Int) := by
    rw [lms_slot_eq s t b hs hb i hi, hk0]
  have bnd := lms_slot_bounds s t b hs hb i hi
  have hnt := next_tail_spec bk k0 _ s[i] hbk hk95 hk0
  simp only at hnt
  rw [← hslot] at hnt
  have hset := vec_set_int sa (lms_slot s t b i) (i : Int) (by omega) (by omega)
  refine ⟨_, _, hnt, hset, ?_, ?_, ?_, ?_, ?_, ?_⟩
  · simpa using h1
  · simpa using h2
  · intro k x hx
    rw [List.getElem?_set]
    by_cases hkk : k0 = k
    · subst hkk
      have hx2 := hb k0 hk95
      rw [hx2] at hx
      simp only [Option.some.injEq] at hx
      subst hx
      have hlen : k0 < bk.length := by omega
      rw [if_pos rfl, if_pos hlen, lms_before_succ,
        if_pos ⟨hl, by rw [List.getElem?_eq_getElem hi, hk0]⟩, hslot]
      simp only [Option.some.injEq, bucket.mk.injEq, true_and]
      push_cast
      ring
    · rw [if_neg hkk, lms_before_succ, if_neg]
      · exact h3 k x hx
      · rintro ⟨_, hh⟩
        rw [List.getElem?_eq_getElem hi, hk0] at hh
        simp only [Option.some.injEq] at hh
        omega
  · rw [List.getElem?_set]
    have : ¬ (lms_slot s t b i).toNat = 0 := by omega
    rw [if_neg this]
    exact h4
  · intro q hq hlq
    rcases Nat.eq_or_lt_of_le (Nat.le_of_lt_succ hq) with e | e
    · subst e
      rw [List.getElem?_set, if_pos rfl, if_pos (by omega)]
    · have hne := lms_slot_ne s t b hs hb q i e hi hlq
      have bq := lms_slot_bounds s t b hs hb q (by omega)
      rw [List.getElem?_set, if_neg (by omega)]
      exact h5 q e hlq
  · intro k hk1 hk2 hfree
    have := hfree i (by omega) hl
    rw [List.getElem?_set, if_neg this]
    exact h6 k hk1 hk2 (fun q hq hlq => hfree q (by omega) hlq)

theorem guess_lms_loop_seeded (s : List Int) (t : List Char) (b : bucket_array)
    (hs : ∀ x ∈ s, 32 ≤ x ∧ x ≤ 126) (hb : fresh_buckets s b) (ht : t.length = s.length + 1) :
    ∀ (k i : Nat) (sa : List Int) (bk : bucket_array), i + k = s.length →
      seeded s t b i sa bk →
      ∃ sa2 bk2, guess_lms_loop s t k (i : Int) (sa, bk) = .ok (sa2, bk2) ∧
        seeded s t b s.length sa2 bk2 := by
  intro k
  induction k with
  | zero =>
    intro i sa bk hik h
    have : i = s.length := by omega
    subst this
    exact ⟨sa, bk, rfl, h⟩
  | succ k ih =>
    intro i sa bk hik h
    have hi : i < s.length := by omega
    have e : ((i : Int) + 1) = ((i + 1 : Nat) : Int) := by push_cast; rfl
    obtain ⟨r, hr⟩ := lms_char_total t i (by omega)
    cases r with
    | false =>
      obtain ⟨sa2, bk2, h1, h2⟩ := ih (i + 1) sa bk (by omega) (seeded_skip s t b i sa bk h hr)
      refine ⟨sa2, bk2, ?_, h2⟩
      rw [guess_lms_loop, hr]
      simp only [bind, Except.bind, Bool.false_eq_true, if_false]
      rw [e]
      exact h1
    | true =>
      obtain ⟨sa1, bk1, hnt, hset, hseed⟩ := seeded_place s t b hs hb i hi sa bk h hr
      obtain ⟨sa2, bk2, h1, h2⟩ := ih (i + 1) sa1 bk1 (by omega) hseed
      refine ⟨sa2, bk2, ?_, h2⟩
      rw [guess_lms_loop, hr]
      simp only [bind, Except.bind, if_true]
      rw [vec_get_nat_lt s i hi]
      simp only [hnt, hset]
      rw [e]
      exact h1

theorem seeded_start (s : List Int) (t : List Char) (b : bucket_array) (hb : b.length = 95) :
    seeded s t b 0 ((List.replicate (s.length + 1) (-1 : Int)).set 0 (s.length : Int)) b := by
  refine ⟨by simp, hb, ?_, by simp, ?_, ?_⟩
  · intro k x hx
    simpa [lms_before] using hx
  · intro q hq
    omega
  · intro k hk1 hk2 _
    rw [List.getElem?_set, if_neg (by omega), List.getElem?_replicate]
    simp
    omega

theorem reset_tails_seeded (s : List Int) (t : List Char) (b bk : bucket_array)
    (hs : ∀ x ∈ s, 32 ≤ x ∧ x ≤ 126) (hb : fresh_buckets s b) (hb95 : b.length = 95)
    (i : Nat) (sa : List Int) (h : seeded s t b i sa bk) : reset_tails bk = b := by
  obtain ⟨_, h2, h3, _, _, _⟩ := h
  have hcount : sizes_count s bk := by
    refine ⟨h2, ?_⟩
    intro j x hx
    have hj : j < 95 := by
      by_contra hlt
      rw [List.getElem?_eq_none (by omega)] at hx
      simp at hx
    have := h3 j _ (hb j hj)
    rw [this] at hx
    simp only [Option.some.injEq] at hx
    rw [← hx]
  apply List.ext_getElem?
  intro k
  by_cases hk : k < 95
  · have e1 := h3 k _ (hb k hk)
    rw [reset_tails_get s hs bk hcount k _ e1, hb k hk]
  · rw [List.getElem?_eq_none (by rw [reset_tails, reset_tails_from_length]; omega),
      List.getElem?_eq_none (by omega)]

/-! ## `construct` does not depend on the recursive call -/

theorem bind_congr_ok {α β : Type} (x : res α) (f g : α → res β)
    (h : ∀ a, x = .ok a → f a = g a) : (x >>= f) = (x >>= g) := by
  cases x with
  | error e => rfl
  | ok a => exact h a rfl

theorem construct_fuel_succ (fuel : Nat) (string : List Int) :
    construct_fuel (fuel + 1) string = construct_fuel 1 string := by
  simp only [construct_fuel]
  refine bind_congr_ok _ _ _ (fun b _ => ?_)
  refine bind_congr_ok _ _ _ (fun t _ => ?_)
  refine bind_congr_ok _ _ _ (fun g _ => ?_)
  refine bind_congr_ok _ _ _ (fun g1 _ => ?_)
  refine bind_congr_ok _ _ _ (fun g2 _ => ?_)
  refine bind_congr_ok _ _ _ (fun r hr => ?_)
  obtain ⟨ss, al, off⟩ := r
  obtain ⟨h1, h2, _⟩ := summarize_ok hr
  simp only
  rw [make_summary_suffix_array_direct _ ss al (by omega),
    make_summary_suffix_array_direct _ ss al (by omega)]

/-! ## The claims -/

/-- C1 (ordering property), evaluated on "ab": instead of returning the sorted
offsets `[2, 0, 1]`, `construct` stops at an index outside a vector (the loop
of `accurate_lms_sort` counts upwards and reads `string[2]`). -/
theorem construct_ab_out_of_bounds :
    construct [97, 98] = .error fault.out_of_bounds ∧ construct [97, 98] ≠ .ok [2, 0, 1] := by
  decide

/-- C2 (permutation property): on every string of length at least 2,
`construct` returns no array at all, hence no permutation of `0..n`: the loop
`for (int i = string.size() - 1; i > 0; i++)` of `accurate_lms_sort` cannot be
left through its condition. -/
theorem construct_returns_nothing_of_two_le (string : List Int) (h : 2 ≤ string.length)
    (out : List Int) : construct string ≠ .ok out :=
  construct_fuel_not_ok _ string out h

theorem construct_returns_nothing_of_two_le_witness :
    2 ≤ [98, 97].length ∧ construct [98, 97] ≠ .ok [2, 1, 0] :=
  ⟨by decide, construct_returns_nothing_of_two_le [98, 97] (by decide) [2, 1, 0]⟩

/-- C3 (round trip on "banana"): `construct` does not return
`[6, 5, 3, 1, 0, 4, 2]`; it stops at an index outside a vector. -/
theorem construct_banana_out_of_bounds :
    construct [98, 97, 110, 97, 110, 97] = .error fault.out_of_bounds ∧
      construct [98, 97, 110, 97, 110, 97] ≠ .ok [6, 5, 3, 1, 0, 4, 2] := by
  decide

/-- C4 (out-of-alphabet rejection): the bucket constructor, and with it
`construct`, fails with a range error exactly on the strings that contain a
non-zero value outside `32..126` (31, 127 and every negative value among them),
wherever that value stands; no array is returned then. A string of characters
in `32..126`, the boundary values 32 and 126 included, never causes a range
error. -/
theorem construct_range_error_iff (string : List Int) :
    (make_buckets string = .error fault.range_error ↔
      ∃ c ∈ string, c ≠ 0 ∧ (c < 32 ∨ 126 < c)) ∧
    (construct string = .error fault.range_error ↔
      ∃ c ∈ string, c ≠ 0 ∧ (c < 32 ∨ 126 < c)) ∧
    ((∃ c ∈ string, c ≠ 0 ∧ (c < 32 ∨ 126 < c)) → ∀ out, construct string ≠ .ok out) ∧
    ((∀ x ∈ string, 32 ≤ x ∧ x ≤ 126) → construct string ≠ .error fault.range_error) := by
  have h1 := make_buckets_range_error_iff string
  have h2 : construct string = .error fault.range_error ↔
      ∃ c ∈ string, c ≠ 0 ∧ (c < 32 ∨ 126 < c) :=
    ⟨fun h => h1.1 (construct_fuel_range _ _ h),
      fun h => construct_of_make_buckets_error _ _ (h1.2 h)⟩
  refine ⟨h1, h2, ?_, ?_⟩
  · intro h out hout
    rw [h2.2 h] at hout
    cases hout
  · intro hs h
    obtain ⟨c, hc, hc0, hout⟩ := h2.1 h
    have := hs c hc
    omega

theorem construct_range_error_iff_witness :
    construct [97, 0, 31, 98] = .error fault.range_error ∧
      construct [32, 127] = .error fault.range_error ∧
      construct [-1] = .error fault.range_error ∧
      construct [32, 126] ≠ .error fault.range_error :=
  ⟨(construct_range_error_iff [97, 0, 31, 98]).2.1.2 ⟨31, by decide, by decide, by decide⟩,
    (construct_range_error_iff [32, 127]).2.1.2 ⟨127, by decide, by decide, by decide⟩,
    (construct_range_error_iff [-1]).2.1.2 ⟨-1, by decide, by decide, by decide⟩,
    (construct_range_error_iff [32, 126]).2.2.2 (by decide)⟩

/-- C5 (single character): for every character `c` with `32 ≤ c ≤ 126`,
`construct [c]` returns exactly `[1, 0]`. -/
theorem construct_single (c : Int) (h1 : 32 ≤ c) (h2 : c ≤ 126) :
    construct [c] = .ok [1, 0] := by
  interval_cases c <;> rfl

theorem construct_single_witness :
    (32 : Int) ≤ 97 ∧ (97 : Int) ≤ 126 ∧ construct [97] = .ok [1, 0] :=
  ⟨by decide, by decide, construct_single 97 (by decide) (by decide)⟩

/-- C6 (repeated character), evaluated on "aaaa": `construct` does not return
`[4, 3, 2, 1, 0]`; it stops at an index outside a vector. -/
theorem construct_aaaa_out_of_bounds :
    construct (List.replicate 4 97) = .error fault.out_of_bounds ∧
      construct (List.replicate 4 97) ≠ .ok [4, 3, 2, 1, 0] := by
  decide

/-- C7 (empty input): on the empty string `map_char_types` writes
`char_types[string.size() - 1]`, an index outside the one-element vector, and
`construct` stops there instead of returning `[0]`. -/
theorem construct_empty_out_of_bounds :
    map_char_types [] = .error fault.out_of_bounds ∧
      construct [] = .error fault.out_of_bounds ∧ construct [] ≠ .ok [0] := by
  decide

/-- C8 (zero in caller input), as the code has it: the guard of the bucket
constructor exempts the value 0, so a string that contains 0 and otherwise only
characters in `32..126` is not rejected with a range error, neither by the
bucket constructor nor by `construct`. -/
theorem construct_zero_no_range_error (s : List Int)
    (hs : ∀ x ∈ s, x = 0 ∨ (32 ≤ x ∧ x ≤ 126)) (h0 : (0 : Int) ∈ s) :
    make_buckets s ≠ .error fault.range_error ∧
      construct s ≠ .error fault.range_error := by
  have _ := h0
  have h1 : make_buckets s ≠ .error fault.range_error := by
    obtain ⟨b2, _, hb⟩ := count_chars_accepts_zero s empty_buckets empty_buckets_length hs
    simp [make_buckets, hb, bind, Except.bind]
  exact ⟨h1, fun h => h1 (construct_fuel_range _ _ h)⟩

theorem construct_zero_no_range_error_witness :
    make_buckets [97, 0, 98] ≠ .error fault.range_error ∧
      construct [97, 0, 98] ≠ .error fault.range_error :=
  construct_zero_no_range_error [97, 0, 98] (by decide) (by decide)

/-- C8, the claim as stated fails on `[0]`: the string contains 0 and
`construct` is not rejected with a range error. -/
theorem construct_zero_not_rejected :
    (0 : Int) ∈ [0] ∧ construct [0] ≠ .error fault.range_error := by
  decide

/-- C9 (sentinel first), evaluated on "aa": `construct` returns no array whose
first element could be `2`; it stops at an index outside a vector. -/
theorem construct_aa_out_of_bounds :
    construct [97, 97] = .error fault.out_of_bounds := by
  decide

/-- C10 (classifier meaning): for every non-empty string of length `n`,
`map_char_types` returns a vector of length `n + 1` that tags position `n` as
S-type and position `n - 1` as L-type, and tags every position `i < n` as
L-type exactly when the suffix at `i` is larger than the suffix at `i + 1` in
the sentinel-as-minimum order, and as S-type exactly when it is smaller. -/
theorem map_char_types_meaning (string : List Int) (h : string ≠ []) :
    ∃ t, map_char_types string = .ok t ∧ t.length = string.length + 1 ∧
      t[string.length]? = some s_type ∧
      t[string.length - 1]? = some l_type ∧
      ∀ i, i < string.length →
        (t[i]? = some l_type ↔ suffix_lt (string.drop (i + 1)) (string.drop i) = true) ∧
        (t[i]? = some s_type ↔ suffix_lt (string.drop i) (string.drop (i + 1)) = true) :=
  ⟨classify string, map_char_types_eq_classify string h, classify_length string,
    classify_at_length string, classify_before_length string h, classify_meaning string⟩

theorem map_char_types_meaning_witness :
    ([98, 97, 110, 97, 110, 97] : List Int) ≠ [] ∧
    ∃ t, map_char_types [98, 97, 110, 97, 110, 97] = .ok t ∧ t.length = 6 + 1 ∧
      t[6]? = some s_type ∧
      t[6 - 1]? = some l_type ∧
      ∀ i, i < 6 →
        (t[i]? = some l_type ↔
          suffix_lt (([98, 97, 110, 97, 110, 97] : List Int).drop (i + 1))
            (([98, 97, 110, 97, 110, 97] : List Int).drop i) = true) ∧
        (t[i]? = some s_type ↔
          suffix_lt (([98, 97, 110, 97, 110, 97] : List Int).drop i)
            (([98, 97, 110, 97, 110, 97] : List Int).drop (i + 1)) = true) :=
  ⟨by decide, map_char_types_meaning [98, 97, 110, 97, 110, 97] (by decide)⟩

/-- C11 (LMS-substring comparator), evaluated on "banana": positions 1 and 3
are LMS positions, yet the comparator answers `false` for the pair `(1, 1)`,
where the two LMS substrings are the same substring. -/
theorem lms_strings_equal_banana_same_position :
    lms_char (classify [98, 97, 110, 97, 110, 97]) 1 = .ok true ∧
      map_char_types [98, 97, 110, 97, 110, 97] = .ok (classify [98, 97, 110, 97, 110, 97]) ∧
      lms_strings_equal 1 1 [98, 97, 110, 97, 110, 97] (classify [98, 97, 110, 97, 110, 97])
        = .ok false := by
  decide

/-- C12 (induction bucket choice), evaluated on "ab" and "ba". On "ab" the slot
at rank 0 holds 2, its predecessor 1 is L-type and `string[1] = 98`, whose head
cursor is slot 2; `induce_sort_ltype` writes the predecessor to slot 1, the head
cursor of the bucket of `string[0]`. `induce_sort_stype` then writes the
predecessor 0 of rank 1 to slot 2, the tail cursor of the bucket of `string[1]`,
not of `string[0] = 97` (slot 1). On "ba" `induce_sort_ltype` reads `string[2]`,
outside the string. -/
theorem induce_sort_bucket_of_rank :
    (do
      let b ← make_buckets [97, 98]
      let (h, _) ← next_head b 98
      let (sa, b1) ← induce_sort_ltype [97, 98] [2, -1, -1] [s_type, l_type, s_type] b
      let (tl, _) ← next_tail b1 97
      let (sa2, _) ← induce_sort_stype [97, 98] sa [s_type, l_type, s_type] b1
      pure (h, sa, tl, sa2)) = (.ok (2, [2, 1, -1], 1, [2, 1, 0]) : res _) ∧
    (do
      let b ← make_buckets [98, 97]
      let (sa, _) ← induce_sort_ltype [98, 97] [2, -1, -1] [l_type, l_type, s_type] b
      pure sa) = (.error fault.out_of_bounds : res (List Int)) := by
  decide

/-- C13 (exact LMS re-seeding): on every string of length at least 2, whatever
summary suffix array, offset map and bucket array it is given,
`accurate_lms_sort` does not return: its loop starts at rank
`string.size() - 1` and counts upwards until an index is out of range. -/
theorem accurate_lms_sort_out_of_bounds (string sum_sa sum_sa_offsets : List Int)
    (buckets : bucket_array) (h : 2 ≤ string.length) :
    accurate_lms_sort string sum_sa sum_sa_offsets buckets = .error fault.out_of_bounds := by
  cases hr : accurate_lms_sort string sum_sa sum_sa_offsets buckets with
  | ok out => exact absurd hr (accurate_lms_sort_not_ok _ _ _ _ _ h)
  | error e =>
    by_cases he : e = fault.out_of_bounds
    · rw [he]
    · exact ((accurate_lms_sort_fault he _ _ _ _).1 hr).elim

theorem accurate_lms_sort_out_of_bounds_witness :
    2 ≤ [97, 98].length ∧
      accurate_lms_sort [97, 98] [3, 2, 1, 0] [0, 1, 2]
        (reset_tails (reset_heads empty_buckets)) = .error fault.out_of_bounds :=
  ⟨by decide, accurate_lms_sort_out_of_bounds [97, 98] [3, 2, 1, 0] [0, 1, 2] _ (by decide)⟩

/-- C14 (summary filtered to LMS positions), evaluated on "ab": the only LMS
position is the sentinel position 2, but the offset map returned by `summarize`
is `[0, 1, 2]`: every entry of the working array receives a name. -/
theorem summarize_ab_not_filtered :
    (do
      let (t, sa, _) ← first_round [97, 98]
      pure (t, sa)) = (.ok ([s_type, l_type, s_type], [2, 1, 0]) : res (List Char × List Int)) ∧
      summarize [97, 98] [2, 1, 0] [s_type, l_type, s_type] = .ok ([2, 1, 0], 3, [0, 1, 2]) ∧
      (List.range 3).map (fun i => lms_char [s_type, l_type, s_type] i)
        = [.ok false, .ok false, .ok true] := by
  decide

/-- C15 (shrinkage), evaluated on "aaaa": the summary string that `construct`
builds has length 5, not at most `4 / 2`. -/
theorem summarize_aaaa_not_shorter :
    (do
      let (t, sa, _) ← first_round [97, 97, 97, 97]
      let (sum_string, _, _) ← summarize [97, 97, 97, 97] sa t
      pure sum_string) = (.ok [4, 3, 2, 1, 0] : res (List Int)) ∧
      ¬ ([4, 3, 2, 1, 0] : List Int).length ≤ 4 / 2 := by
  decide

/-- C16 (base case of `make_summary_suffix_array`): for a summary string `t`
whose `m` names are distinct values of `0..m-1`, and `alpha_size = m`, the call
returns, whatever the recursive call would do, the array `r` of length `m + 1`
with `r[0] = m` and `r[t[k] + 1] = k` for every position `k`; `r` is a
permutation of `0..m`, and the suffixes of `t` at `r[0], r[1], ...` are in
strictly ascending order, the sentinel being the smallest character. -/
theorem make_summary_suffix_array_base (t : List Int) (hnd : t.Nodup)
    (hr : ∀ v ∈ t, 0 ≤ v ∧ v < (t.length : Int)) :
    ∃ r, (∀ construct_rec : List Int → res (List Int),
        make_summary_suffix_array construct_rec t (t.length : Int) = .ok r) ∧
      r.length = t.length + 1 ∧ r[0]? = some (t.length : Int) ∧
      (∀ k (hk : k < t.length), r[(t[k] + 1).toNat]? = some (k : Int)) ∧
      r.Perm ((List.range (t.length + 1)).map Int.ofNat) ∧
      (∀ (i j : Nat) (a b : Int), i < j → r[i]? = some a → r[j]? = some b →
        suffix_lt (t.drop a.toNat) (t.drop b.toNat) = true) := by
  obtain ⟨r, h1, h2, h3, h4⟩ := direct_placement_facts t hnd hr
  have hslot := direct_placement_slot t r hnd hr h4
  have hnodup : r.Nodup := by
    rw [List.nodup_iff_getElem?_ne_getElem?]
    intro i j hij hj heq
    obtain ⟨k2, hk2, hv2, hr2⟩ := hslot j (by omega) (by omega)
    rcases Nat.eq_zero_or_pos i with hi | hi
    · subst hi
      rw [h3, hr2] at heq
      simp only [Option.some.injEq, Nat.cast_inj] at heq
      omega
    · obtain ⟨k1, hk1, hv1, hr1⟩ := hslot i hi (by omega)
      rw [hr1, hr2] at heq
      simp only [Option.some.injEq, Nat.cast_inj] at heq
      subst heq
      rw [hv1] at hv2
      omega
  have hsub : r ⊆ (List.range (t.length + 1)).map Int.ofNat := by
    intro x hx
    obtain ⟨p, hp, hpx⟩ := List.getElem_of_mem hx
    have hpx2 : r[p]? = some x := by rw [List.getElem?_eq_getElem hp, hpx]
    rcases Nat.eq_zero_or_pos p with h0 | h0
    · subst h0
      rw [h3] at hpx2
      simp only [Option.some.injEq] at hpx2
      exact List.mem_map.2 ⟨t.length, List.mem_range.2 (by omega), hpx2⟩
    · obtain ⟨k, hk, _, hrk⟩ := hslot p h0 (by omega)
      rw [hrk] at hpx2
      simp only [Option.some.injEq] at hpx2
      exact List.mem_map.2 ⟨k, List.mem_range.2 (by omega), hpx2⟩
  refine ⟨r, ?_, h2, h3, h4, ?_, ?_⟩
  · intro construct_rec
    rw [make_summary_suffix_array_direct construct_rec t _ (le_refl _)]
    exact h1
  · exact (List.subperm_of_subset hnodup hsub).perm_of_length_le (by simp [h2])
  · intro i j a b hij ha hb
    have hj : j < r.length := by
      by_contra hlt
      rw [List.getElem?_eq_none (by omega)] at hb
      simp at hb
    obtain ⟨k2, hk2, hv2, hr2⟩ := hslot j (by omega) (by omega)
    rw [hr2] at hb
    simp only [Option.some.injEq] at hb
    subst hb
    rw [Int.toNat_ofNat, List.drop_eq_getElem_cons hk2]
    rcases Nat.eq_zero_or_pos i with hi | hi
    · subst hi
      rw [h3] at ha
      simp only [Option.some.injEq] at ha
      subst ha
      rw [Int.toNat_ofNat, List.drop_length]
      rfl
    · obtain ⟨k1, hk1, hv1, hr1⟩ := hslot i hi (by omega)
      rw [hr1] at ha
      simp only [Option.some.injEq] at ha
      subst ha
      rw [Int.toNat_ofNat, List.drop_eq_getElem_cons hk1]
      have : t[k1] < t[k2] := by omega
      simp [suffix_lt, this]

theorem make_summary_suffix_array_base_witness :
    ∃ r, (∀ construct_rec : List Int → res (List Int),
        make_summary_suffix_array construct_rec [2, 0, 1] (([2, 0, 1] : List Int).length : Int)
          = .ok r) ∧
      r.length = ([2, 0, 1] : List Int).length + 1 ∧
      r[0]? = some (([2, 0, 1] : List Int).length : Int) ∧
      (∀ k (hk : k < ([2, 0, 1] : List Int).length),
        r[(([2, 0, 1] : List Int)[k] + 1).toNat]? = some (k : Int)) ∧
      r.Perm ((List.range (([2, 0, 1] : List Int).length + 1)).map Int.ofNat) ∧
      (∀ (i j : Nat) (a b : Int), i < j → r[i]? = some a → r[j]? = some b →
        suffix_lt (([2, 0, 1] : List Int).drop a.toNat) (([2, 0, 1] : List Int).drop b.toNat)
          = true) :=
  make_summary_suffix_array_base [2, 0, 1] (by decide) (by decide)

/-- C17 (bucket regions): after the constructor has run over a string of
characters in `32..126`, every character `c` of that range has
`size = ` its number of occurrences, `head = 1 + ` the number of smaller
characters, and `tail = head + size - 1`, which is the head of the next bucket
minus 1; `reset_heads` and `reset_tails` applied to any bucket array with these
sizes restore exactly these heads and tails and change nothing else; every slot
`1..n` lies in the region `[head, tail]` of some character, no region contains
another slot, and no slot lies in two regions. -/
theorem bucket_regions (s : List Int) (hs : ∀ x ∈ s, 32 ≤ x ∧ x ≤ 126) :
    ∃ b : bucket_array, make_buckets s = .ok b ∧ b.length = 95 ∧
      (∀ c, 32 ≤ c → c ≤ 126 →
        (bucket_at b c).size = (s.count c : Int) ∧
        (bucket_at b c).head = 1 + chars_below s c ∧
        (bucket_at b c).tail = (bucket_at b c).head + (bucket_at b c).size - 1 ∧
        (c < 126 → (bucket_at b c).tail = (bucket_at b (c + 1)).head - 1)) ∧
      (∀ b2 : bucket_array, b2.length = 95 →
        (∀ c, 32 ≤ c → c ≤ 126 → (bucket_at b2 c).size = (bucket_at b c).size) →
        ∀ c, 32 ≤ c → c ≤ 126 →
          bucket_at (reset_heads b2) c = { bucket_at b2 c with head := (bucket_at b c).head } ∧
          bucket_at (reset_tails b2) c = { bucket_at b2 c with tail := (bucket_at b c).tail }) ∧
      (∀ p : Int, (1 ≤ p ∧ p ≤ (s.length : Int)) ↔
        ∃ c, 32 ≤ c ∧ c ≤ 126 ∧ (bucket_at b c).head ≤ p ∧ p ≤ (bucket_at b c).tail) ∧
      (∀ c d p : Int, 32 ≤ c → c ≤ 126 → 32 ≤ d → d ≤ 126 →
        (bucket_at b c).head ≤ p → p ≤ (bucket_at b c).tail →
        (bucket_at b d).head ≤ p → p ≤ (bucket_at b d).tail → c = d) := by
  obtain ⟨b, h1, h2, h3⟩ := make_buckets_get s hs
  have hat : ∀ c, 32 ≤ c → c ≤ 126 → bucket_at b c =
      ⟨1 + chars_below s c, (s.count c : Int), chars_below s (c + 1)⟩ := by
    intro c hc1 hc2
    obtain ⟨k, rfl⟩ : ∃ k : Nat, c = 32 + (k : Int) := ⟨(c - 32).toNat, by omega⟩
    exact bucket_at_of_get (h3 k (by omega))
  have hsize : ∀ c, 32 ≤ c → c ≤ 126 → (bucket_at b c).size = (s.count c : Int) := by
    intro c hc1 hc2
    rw [hat c hc1 hc2]
  refine ⟨b, h1, h2.1, ?_, ?_, ?_, ?_⟩
  · intro c hc1 hc2
    rw [hat c hc1 hc2]
    refine ⟨rfl, rfl, ?_, ?_⟩
    · simp only
      rw [chars_below_succ]
      ring
    · intro hc3
      rw [hat (c + 1) (by omega) (by omega)]
      simp
  · intro b2 hb2 hsz c hc1 hc2
    have hcount := sizes_count_of_bucket_at s b b2 hb2 hsize hsz
    obtain ⟨k, hk, hget⟩ := get_of_length_95 b2 hb2 c hc1 hc2
    subst hk
    rw [hat _ hc1 hc2]
    exact ⟨bucket_at_of_get (reset_heads_get s hs b2 hcount k _ hget),
      bucket_at_of_get (reset_tails_get s hs b2 hcount k _ hget)⟩
  · intro p
    constructor
    · rintro ⟨hp1, hp2⟩
      obtain ⟨k, hk, hl, hu⟩ := region_search s hs p hp1 95
        (by rw [show (32 : Int) + ((95 : Nat) : Int) = 127 by rfl, chars_below_max s hs]
            exact hp2)
      refine ⟨32 + (k : Int), by omega, by omega, ?_, ?_⟩
      · rw [hat _ (by omega) (by omega)]
        simp only
        omega
      · rw [hat _ (by omega) (by omega)]
        exact hu
    · rintro ⟨c, hc1, hc2, hh, ht⟩
      rw [hat c hc1 hc2] at hh ht
      simp only at hh ht
      have := chars_below_nonneg s c
      have := chars_below_le_length s (c + 1)
      omega
  · intro c d p hc1 hc2 hd1 hd2 hch hct hdh hdt
    rw [hat c hc1 hc2] at hch hct
    rw [hat d hd1 hd2] at hdh hdt
    simp only at hch hct hdh hdt
    by_contra hne
    rcases lt_or_gt_of_ne hne with hlt | hgt
    · have := chars_below_mono s (c + 1) d (by omega)
      omega
    · have := chars_below_mono s (d + 1) c (by omega)
      omega

theorem bucket_regions_witness :
    ∃ b : bucket_array, make_buckets [98, 97, 110, 97, 110, 97] = .ok b ∧ b.length = 95 ∧
      (∀ c, 32 ≤ c → c ≤ 126 →
        (bucket_at b c).size = (([98, 97, 110, 97, 110, 97] : List Int).count c : Int) ∧
        (bucket_at b c).head = 1 + chars_below [98, 97, 110, 97, 110, 97] c ∧
        (bucket_at b c).tail = (bucket_at b c).head + (bucket_at b c).size - 1 ∧
        (c < 126 → (bucket_at b c).tail = (bucket_at b (c + 1)).head - 1)) ∧
      (∀ b2 : bucket_array, b2.length = 95 →
        (∀ c, 32 ≤ c → c ≤ 126 → (bucket_at b2 c).size = (bucket_at b c).size) →
        ∀ c, 32 ≤ c → c ≤ 126 →
          bucket_at (reset_heads b2) c = { bucket_at b2 c with head := (bucket_at b c).head } ∧
          bucket_at (reset_tails b2) c = { bucket_at b2 c with tail := (bucket_at b c).tail }) ∧
      (∀ p : Int, (1 ≤ p ∧ p ≤ (([98, 97, 110, 97, 110, 97] : List Int).length : Int)) ↔
        ∃ c, 32 ≤ c ∧ c ≤ 126 ∧ (bucket_at b c).head ≤ p ∧ p ≤ (bucket_at b c).tail) ∧
      (∀ c d p : Int, 32 ≤ c → c ≤ 126 → 32 ≤ d → d ≤ 126 →
        (bucket_at b c).head ≤ p → p ≤ (bucket_at b c).tail →
        (bucket_at b d).head ≤ p → p ≤ (bucket_at b d).tail → c = d) :=
  bucket_regions [98, 97, 110, 97, 110, 97] (by decide)

/-- C18 (LMS seeding by `guess_lms`): for a non-empty string of characters in
`32..126`, its tags and its freshly built bucket array, `guess_lms` returns an
array of length `n + 1` with slot 0 equal to `n`; every LMS position `p < n`
occupies exactly one slot, `lms_slot p`, which is the tail of the bucket of
`string[p]` lowered by the number of earlier LMS positions with the same
character (so later positions of a character get lower slots) and lies in the
region of that bucket; every other slot `1..n` holds `-1`; and the bucket array
that comes back is the fresh one, its tails at the ends of the regions. -/
theorem guess_lms_seeds (s : List Int) (hne : s ≠ []) (hs : ∀ x ∈ s, 32 ≤ x ∧ x ≤ 126) :
    ∃ (t : List Char) (b : bucket_array) (sa : List Int),
      map_char_types s = .ok t ∧ make_buckets s = .ok b ∧ guess_lms s t b = .ok (sa, b) ∧
      sa.length = s.length + 1 ∧ sa[0]? = some (s.length : Int) ∧
      (∀ p : Nat, p < s.length → lms_char t (p : Int) = .ok true →
        (bucket_at b (s.getD p 0)).head ≤ lms_slot s t b p ∧
        lms_slot s t b p ≤ (bucket_at b (s.getD p 0)).tail ∧
        ∀ k : Nat, sa[k]? = some (p : Int) ↔ (k : Int) = lms_slot s t b p) ∧
      (∀ p q : Nat, p < q → q < s.length → lms_char t (p : Int) = .ok true →
        lms_char t (q : Int) = .ok true → s.getD p 0 = s.getD q 0 →
        lms_slot s t b q < lms_slot s t b p) ∧
      (∀ k : Nat, 1 ≤ k → k ≤ s.length →
        (∀ p : Nat, p < s.length → lms_char t (p : Int) = .ok true →
          (k : Int) ≠ lms_slot s t b p) →
        sa[k]? = some (-1)) := by
  obtain ⟨b, hmk, hsz, hfresh⟩ := make_buckets_get s hs
  have hb : fresh_buckets s b := hfresh
  have ht : (classify s).length = s.length + 1 := classify_length s
  obtain ⟨sa, bk, hloop, hseed⟩ := guess_lms_loop_seeded s (classify s) b hs hb ht s.length 0
    _ b (by omega) (seeded_start s (classify s) b hsz.1)
  have hreset := reset_tails_seeded s (classify s) b bk hs hb hsz.1 _ sa hseed
  obtain ⟨h1, h2, h3, h4, h5, h6⟩ := hseed
  have hgetD : ∀ p : Nat, ∀ hp : p < s.length, s.getD p 0 = s[p] := by
    intro p hp
    rw [List.getD_eq_getElem?_getD, List.getElem?_eq_getElem hp]
    rfl
  have hat : ∀ p : Nat, ∀ hp : p < s.length, bucket_at b s[p] =
      ⟨1 + chars_below s s[p], (s.count s[p] : Int), chars_below s (s[p] + 1)⟩ := by
    intro p hp
    have hc := hs s[p] (List.getElem_mem hp)
    obtain ⟨k, hk⟩ : ∃ k : Nat, s[p] = 32 + (k : Int) := ⟨(s[p] - 32).toNat, by omega⟩
    rw [hk]
    exact bucket_at_of_get (hb k (by omega))
  refine ⟨classify s, b, sa, map_char_types_eq_classify s hne, hmk, ?_, h1, h4, ?_, ?_, ?_⟩
  · unfold guess_lms
    have h0 := vec_set_int (List.replicate (s.length + 1) (-1 : Int)) 0 (s.length : Int)
      (le_refl _) (by simp)
    simp only [h0, bind, Except.bind, Int.toNat_zero]
    have hl0 : guess_lms_loop s (classify s) s.length 0
        ((List.replicate (s.length + 1) (-1 : Int)).set 0 (s.length : Int), b) = .ok (sa, bk) :=
      hloop
    rw [hl0]
    simp only
    rw [hreset]
  · intro p hp hl
    have bnd := lms_slot_bounds s (classify s) b hs hb p hp
    rw [hgetD p hp, hat p hp]
    refine ⟨bnd.1, bnd.2.1, ?_⟩
    intro k
    constructor
    · intro hk
      have hklt : k < sa.length := by
        by_contra hlt
        rw [List.getElem?_eq_none (by omega)] at hk
        simp at hk
      by_contra hne2
      rcases Nat.eq_zero_or_pos k with hk0 | hk0
      · subst hk0
        rw [h4] at hk
        simp only [Option.some.injEq, Nat.cast_inj] at hk
        omega
      · by_cases hex : ∃ q : Nat, q < s.length ∧ lms_char (classify s) (q : Int) = .ok true ∧
            (lms_slot s (classify s) b q).toNat = k
        · obtain ⟨q, hq, hlq, hsq⟩ := hex
          have := h5 q hq hlq
          rw [hsq, hk] at this
          simp only [Option.some.injEq, Nat.cast_inj] at this
          subst this
          omega
        · have := h6 k hk0 (by omega) (fun q hq hlq hsq => hex ⟨q, hq, hlq, hsq⟩)
          rw [hk] at this
          simp only [Option.some.injEq] at this
          omega
    · intro hk
      have := h5 p hp hl
      rw [← hk] at this
      simpa using this
  · intro p q hpq hq hlp hlq hc
    have hp : p < s.length := by omega
    rw [hgetD p hp, hgetD q hq] at hc
    rw [lms_slot_eq s _ b hs hb p hp, lms_slot_eq s _ b hs hb q hq, hc]
    have h7 := lms_before_mono s (classify s) s[q] (p + 1) q (by omega)
    rw [lms_before_succ, if_pos ⟨hlp, by rw [List.getElem?_eq_getElem hp, hc]⟩] at h7
    omega
  · intro k hk1 hk2 hfree
    apply h6 k hk1 hk2
    intro q hq hlq hsq
    have bnd := lms_slot_bounds s (classify s) b hs hb q hq
    exact hfree q hq hlq (by omega)

theorem guess_lms_seeds_witness :
    ([98, 97, 98] : List Int) ≠ [] ∧
    ∃ (t : List Char) (b : bucket_array) (sa : List Int),
      map_char_types ([98, 97, 98] : List Int) = .ok t ∧
      make_buckets ([98, 97, 98] : List Int) = .ok b ∧
      guess_lms ([98, 97, 98] : List Int) t b = .ok (sa, b) ∧
      sa.length = ([98, 97, 98] : List Int).length + 1 ∧
      sa[0]? = some (([98, 97, 98] : List Int).length : Int) ∧
      (∀ p : Nat, p < ([98, 97, 98] : List Int).length → lms_char t (p : Int) = .ok true →
        (bucket_at b (([98, 97, 98] : List Int).getD p 0)).head ≤ lms_slot ([98, 97, 98] : List Int) t b p ∧
        lms_slot ([98, 97, 98] : List Int) t b p ≤ (bucket_at b (([98, 97, 98] : List Int).getD p 0)).tail ∧
        ∀ k : Nat, sa[k]? = some (p : Int) ↔ (k : Int) = lms_slot ([98, 97, 98] : List Int) t b p) ∧
      (∀ p q : Nat, p < q → q < ([98, 97, 98] : List Int).length →
        lms_char t (p : Int) = .ok true → lms_char t (q : Int) = .ok true →
        ([98, 97, 98] : List Int).getD p 0 = ([98, 97, 98] : List Int).getD q 0 →
        lms_slot ([98, 97, 98] : List Int) t b q < lms_slot ([98, 97, 98] : List Int) t b p) ∧
      (∀ k : Nat, 1 ≤ k → k ≤ ([98, 97, 98] : List Int).length →
        (∀ p : Nat, p < ([98, 97, 98] : List Int).length → lms_char t (p : Int) = .ok true →
          (k : Int) ≠ lms_slot ([98, 97, 98] : List Int) t b p) →
        sa[k]? = some (-1)) :=
  ⟨by decide, guess_lms_seeds [98, 97, 98] (by decide) (by decide)⟩

/-- C19 (implicit): whenever `lms_strings_equal` returns, it returns `false`. -/
theorem lms_strings_equal_never_true (i j : Int) (string : List Int) (char_types : List Char)
    (b : Bool) (h : lms_strings_equal i j string char_types = .ok b) : b = false := by
  cases b with
  | false => rfl
  | true => exact absurd h (lms_strings_equal_not_true i j string char_types)

theorem lms_strings_equal_never_true_witness :
    lms_strings_equal 1 3 [98, 97, 110, 97, 110, 97] (classify [98, 97, 110, 97, 110, 97])
        = .ok false ∧ false = false :=
  ⟨by decide, lms_strings_equal_never_true 1 3 [98, 97, 110, 97, 110, 97]
    (classify [98, 97, 110, 97, 110, 97]) false (by decide)⟩

/-- C20 (implicit): whenever `summarize` returns, `alpha_size` is the length of
the working array and at least the length of the summary string, so
`make_summary_suffix_array` places the names directly, whatever the recursive
call would do; and `construct` gives the same result with one level of calls as
with any number of levels, i.e. it never calls itself. -/
theorem summarize_never_recursive (string guessed_sa : List Int) (char_types : List Char)
    (sum_string sum_string_offsets : List Int) (alpha_size : Int)
    (h : summarize string guessed_sa char_types
      = .ok (sum_string, alpha_size, sum_string_offsets)) :
    alpha_size = guessed_sa.length ∧ (sum_string.length : Int) ≤ alpha_size ∧
      ¬ alpha_size < sum_string.length ∧
      (∀ construct_rec : List Int → res (List Int),
        make_summary_suffix_array construct_rec sum_string alpha_size =
          (vec_set (List.replicate (sum_string.length + 1) (-1 : Int)) 0
              (sum_string.length : Int)
            >>= place_names sum_string sum_string.length 0)) ∧
      ∀ fuel : Nat, construct_fuel (fuel + 1) string = construct_fuel 1 string := by
  obtain ⟨h1, h2, _⟩ := summarize_ok h
  exact ⟨h1, by omega, by omega,
    fun rec => make_summary_suffix_array_direct rec _ _ (by omega),
    fun fuel => construct_fuel_succ fuel string⟩

theorem summarize_never_recursive_witness :
    (3 : Int) = ([2, 1, 0] : List Int).length ∧ (([2, 1, 0] : List Int).length : Int) ≤ 3 ∧
      ¬ (3 : Int) < ([2, 1, 0] : List Int).length ∧
      (∀ construct_rec : List Int → res (List Int),
        make_summary_suffix_array construct_rec [2, 1, 0] 3 =
          (vec_set (List.replicate (([2, 1, 0] : List Int).length + 1) (-1 : Int)) 0
              (([2, 1, 0] : List Int).length : Int)
            >>= place_names [2, 1, 0] ([2, 1, 0] : List Int).length 0)) ∧
      ∀ fuel : Nat, construct_fuel (fuel + 1) [97, 98] = construct_fuel 1 [97, 98] :=
  summarize_never_recursive [97, 98] [2, 1, 0] [s_type, l_type, s_type] [2, 1, 0] [0, 1, 2] 3
    (by decide)

end suffix_array
